import Mathlib

/-! MyHash: a chained hash table with load-factor driven doubling.

A shallow embedding of `src/MyHash.h` (class template `MyHash<KeyType, ValueType>`).

Modelling decisions, all of them visible in the definitions below:

* A bucket chain (`Bucket*` linked through `next`) is a `List (K × V)`, head first.
  The directory `m_map` (`Bucket**`) is a list of chains, one per slot.
* A `ValueType*` returned by `find` is the address of the `val` field of one node; it is
  modelled by `ValuePtr`, the slot of the chain and the offset of the node in it. `nullptr`
  is `none`.
* The external `unsigned int hash(const KeyType&)` is a parameter `hash : K → Nat`.
  `KeyType::operator==` is decidable equality on `K`.
* Arithmetic is modelled at two levels. In the idealised operations (`associate`, `run`,
  `Reachable`) a `double` is an exact rational `ℚ` and an `int` is a `Nat` that never
  overflows; the claims about the stored entries (lookups, counts, placement, rehash) are
  settled there, since they do not depend on where the growth threshold falls.
* In the machine operations (`associateMachine`, `runMachine`, `ReachableMachine`) the
  quotient of line 128 is rounded to binary64 (`roundToDouble`: 53 significant bits, round to
  nearest, ties to even) and the operation fails with `none` where `m_items++` or
  `m_capacity *= 2` leaves the range of a 32-bit `int` (undefined behaviour in C++). The
  claims about the growth threshold, the load bound and the range of the capacity are settled
  there. The maximum load factor is any rational, which covers every finite `double`; NaN
  and infinities are not modelled. Allocation is assumed to succeed.
* Reading a directory slot is `List.getD _ _ []` and writing one is `List.set`; both are in
  bounds in every state that satisfies the invariant (`Reachable.inv`, `getBucketNumber_lt`).
-/

set_option autoImplicit false

/-- A pointer to the `val` field of a node: directory slot and offset in the chain. -/
structure ValuePtr where
  idx : Nat
  pos : Nat
  deriving DecidableEq

/-- The data members of `MyHash<KeyType, ValueType>`. -/
structure MyHash (K V : Type) where
  m_maxLoadFactor : ℚ
  m_currLoadFactor : ℚ
  m_items : Nat
  m_capacity : Nat
  m_map : List (List (K × V))
  deriving DecidableEq

/-- The operations a client can apply to a table after construction. -/
inductive Op (K V : Type) where
  | associate (key : K) (value : V)
  | reset
  deriving DecidableEq

namespace MyHash

variable {K V : Type}

/-- The constructor `MyHash(double maxLoadFactor)`: clamp the maximum load factor and
allocate 100 empty slots. -/
def construct (maxLoadFactor : ℚ) : MyHash K V :=
  { m_maxLoadFactor :=
      if maxLoadFactor ≤ 0 then 1 / 2
      else if maxLoadFactor > 2 then 2
      else maxLoadFactor
    m_currLoadFactor := 0
    m_items := 0
    m_capacity := 100
    m_map := List.replicate 100 [] }

/-- The method `reset()`: free every node and the directory, then reinitialise everything
but `m_maxLoadFactor`. -/
def reset (t : MyHash K V) : MyHash K V :=
  { t with
    m_items := 0
    m_currLoadFactor := 0
    m_capacity := 100
    m_map := List.replicate 100 [] }

/-- The method `getNumItems()`. -/
def getNumItems (t : MyHash K V) : Nat := t.m_items

/-- The method `getLoadFactor()`. -/
def getLoadFactor (t : MyHash K V) : ℚ := t.m_currLoadFactor

/-- The method `getBucketNumber(key)`: `hash(key) % m_capacity`. -/
def getBucketNumber (hash : K → Nat) (t : MyHash K V) (key : K) : Nat :=
  hash key % t.m_capacity

/-- The `while` loop of `find`: offset of the first node of the chain whose key is `key`. -/
def chainLocate [DecidableEq K] (key : K) : List (K × V) → Option Nat
  | [] => none
  | p :: next => if p.1 = key then some 0 else (chainLocate key next).map (· + 1)

/-- The method `find(key)`, const and mutable form alike: the address of the value stored
under `key`, or `none` for `nullptr`. -/
def find [DecidableEq K] (hash : K → Nat) (t : MyHash K V) (key : K) : Option ValuePtr :=
  let idx := getBucketNumber hash t key
  (chainLocate key (t.m_map.getD idx [])).map (fun pos => ValuePtr.mk idx pos)

/-- Replace the value of the node at offset `pos` of a chain. -/
def chainWrite (value : V) : List (K × V) → Nat → List (K × V)
  | [], _ => []
  | p :: next, 0 => (p.1, value) :: next
  | p :: next, pos + 1 => p :: chainWrite value next pos

/-- Dereference a pointer returned by `find`: `*p`. -/
def read (t : MyHash K V) (p : ValuePtr) : Option V :=
  ((t.m_map.getD p.idx []).get? p.pos).map Prod.snd

/-- Assign through a pointer returned by the mutable `find`: `*p = value`. -/
def write (t : MyHash K V) (p : ValuePtr) (value : V) : MyHash K V :=
  { t with m_map := t.m_map.set p.idx (chainWrite value (t.m_map.getD p.idx []) p.pos) }

/-- What a caller observes through `find(key)`: the value the returned pointer points to, or
`none` when `find` returns `nullptr`. -/
def findValue [DecidableEq K] (hash : K → Nat) (t : MyHash K V) (key : K) : Option V :=
  (find hash t key).bind (read t)

/-- The inner `while` loop of `transferMap`: relink every node of the chain `p` to the front
of its chain in `newMap`, the index being computed with the capacity of `t`. -/
def transferChain (hash : K → Nat) (t : MyHash K V) :
    List (K × V) → List (List (K × V)) → List (List (K × V))
  | [], newMap => newMap
  | p :: temp, newMap =>
      let newIdx := getBucketNumber hash t p.1
      transferChain hash t temp (newMap.set newIdx (p :: newMap.getD newIdx []))

/-- The method `transferMap()`, called with `m_capacity` already doubled: allocate
`m_capacity` empty slots and move the chains of slots `0 .. m_capacity / 2 - 1` of the old
directory into them. -/
def transferMap (hash : K → Nat) (t : MyHash K V) : MyHash K V :=
  let newMap : List (List (K × V)) := List.replicate t.m_capacity []
  let newMap := (List.range (t.m_capacity / 2)).foldl
    (fun newMap i => transferChain hash t (t.m_map.getD i []) newMap) newMap
  { t with m_map := newMap }

/-- The method `associate(key, value)`. -/
def associate [DecidableEq K] (hash : K → Nat) (t : MyHash K V) (key : K) (value : V) :
    MyHash K V :=
  match find hash t key with
  | some prevIdx => write t prevIdx value
  | none =>
    let t := { t with m_items := t.m_items + 1 }
    let t := { t with m_currLoadFactor := (1 * (getNumItems t : ℚ)) / (t.m_capacity : ℚ) }
    let t :=
      if t.m_currLoadFactor > t.m_maxLoadFactor then
        transferMap hash { t with m_capacity := t.m_capacity * 2 }
      else t
    let idx := getBucketNumber hash t key
    { t with m_map := t.m_map.set idx ((key, value) :: t.m_map.getD idx []) }

/-- Lines 127-128 of `associate` on their own: count the new item and recompute the load
factor. -/
def countItem (t : MyHash K V) : MyHash K V :=
  let t := { t with m_items := t.m_items + 1 }
  { t with m_currLoadFactor := (1 * (getNumItems t : ℚ)) / (t.m_capacity : ℚ) }

/-- Lines 132-133 of `associate` on their own: double the capacity and rehash. -/
def grow (hash : K → Nat) (t : MyHash K V) : MyHash K V :=
  transferMap hash { t with m_capacity := t.m_capacity * 2 }

/-- Lines 135-137 of `associate` on their own: link a new node in front of the chain of
`key`. -/
def linkFront (hash : K → Nat) (t : MyHash K V) (key : K) (value : V) : MyHash K V :=
  let idx := getBucketNumber hash t key
  { t with m_map := t.m_map.set idx ((key, value) :: t.m_map.getD idx []) }

/-- Apply one client operation. -/
def step [DecidableEq K] (hash : K → Nat) (t : MyHash K V) : Op K V → MyHash K V
  | Op.associate key value => associate hash t key value
  | Op.reset => reset t

/-- Apply a sequence of client operations, first to last. -/
def run [DecidableEq K] (hash : K → Nat) (t : MyHash K V) (ops : List (Op K V)) : MyHash K V :=
  ops.foldl (step hash) t

/-- Apply a sequence of `associate(k, v)` calls, first to last. -/
def associateAll [DecidableEq K] (hash : K → Nat) (t : MyHash K V) (calls : List (K × V)) :
    MyHash K V :=
  calls.foldl (fun s kv => associate hash s kv.1 kv.2) t

/-- Sample input: `n` calls `associate(i, i)` with the pairwise distinct keys `0 .. n - 1`. -/
def distinctCalls (n : Nat) : List (Nat × Nat) :=
  (List.range n).map (fun i => (i, i))

/-- All nodes of the directory, slot by slot. -/
def entries (t : MyHash K V) : List (K × V) := t.m_map.flatten

/-- The rehash as the specification words it, to compare with `transferMap`: allocate
`m_capacity` empty slots and rehash all currently stored entries, chain after chain, whatever
the number of slots of the old directory. -/
def rehashAll (hash : K → Nat) (t : MyHash K V) : MyHash K V :=
  let newMap : List (List (K × V)) := List.replicate t.m_capacity []
  let newMap := t.m_map.foldl (fun newMap chain => transferChain hash t chain newMap) newMap
  { t with m_map := newMap }

/-- Largest value of the 32-bit `int` that holds `m_items` and `m_capacity`. -/
def INT_MAX : Nat := 2147483647

/-- Round a rational to the nearest integer, ties to the even one. -/
def roundTiesToEven (q : ℚ) : ℤ :=
  let f := ⌊q⌋
  if q - f < 1 / 2 then f
  else if 1 / 2 < q - f then f + 1
  else if f % 2 = 0 then f else f + 1

/-- The binary64 value of a rational: with `2 ^ e ≤ |x| < 2 ^ (e + 1)`, the multiple of
`2 ^ (e - 52)` nearest to `x`, ties to the even multiple. The exponent is not bounded: the
quotient of two positive `int` lies between `2 ^ (-31)` and `2 ^ 31`, inside the normal range
of binary64. -/
def roundToDouble (x : ℚ) : ℚ :=
  if x = 0 then 0
  else
    let e : ℤ := Int.log 2 |x|
    (roundTiesToEven (x * 2 ^ (52 - e)) : ℚ) * 2 ^ (e - 52)

/-- The method `associate(key, value)` in machine arithmetic: `none` where `m_items++` or
`m_capacity *= 2` overflows the `int`, and the quotient of line 128 (both `int` convert
exactly to `double`) rounded to `double` before it is stored and compared. -/
def associateMachine [DecidableEq K] (hash : K → Nat) (t : MyHash K V) (key : K) (value : V) :
    Option (MyHash K V) :=
  match find hash t key with
  | some prevIdx => some (write t prevIdx value)
  | none =>
    if INT_MAX < t.m_items + 1 then none
    else
      let t := { t with m_items := t.m_items + 1 }
      let quotient : ℚ := roundToDouble ((1 * (getNumItems t : ℚ)) / (t.m_capacity : ℚ))
      let t := { t with m_currLoadFactor := quotient }
      if t.m_currLoadFactor > t.m_maxLoadFactor then
        if INT_MAX < t.m_capacity * 2 then none
        else
          let t := transferMap hash { t with m_capacity := t.m_capacity * 2 }
          let idx := getBucketNumber hash t key
          some { t with m_map := t.m_map.set idx ((key, value) :: t.m_map.getD idx []) }
      else
        let idx := getBucketNumber hash t key
        some { t with m_map := t.m_map.set idx ((key, value) :: t.m_map.getD idx []) }

/-- Lines 127-128 of `associate` in machine arithmetic, on their own. -/
def countItemMachine (t : MyHash K V) : MyHash K V :=
  let t := { t with m_items := t.m_items + 1 }
  { t with m_currLoadFactor := roundToDouble ((1 * (getNumItems t : ℚ)) / (t.m_capacity : ℚ)) }

/-- Apply one client operation in machine arithmetic. -/
def stepMachine [DecidableEq K] (hash : K → Nat) (t : MyHash K V) :
    Op K V → Option (MyHash K V)
  | Op.associate key value => associateMachine hash t key value
  | Op.reset => some (reset t)

/-- Apply a sequence of client operations in machine arithmetic, first to last; `none` as
soon as one of them fails. -/
def runMachine [DecidableEq K] (hash : K → Nat) (t : MyHash K V) :
    List (Op K V) → Option (MyHash K V)
  | [] => some t
  | op :: rest => (stepMachine hash t op).bind (fun s => runMachine hash s rest)

/-- Sample input: the calls of `distinctCalls n` as operations. -/
def insertOps (n : Nat) : List (Op Nat Nat) :=
  (distinctCalls n).map (fun kv => Op.associate kv.1 kv.2)

/-- Sample input: the `double` nearest to 0.3, which is below 3/10. -/
def doubleThreeTenths : ℚ := 5404319552844595 / 18014398509481984

/-- Sample state: the table after the first `n` operations of `insertOps` on a table
constructed with the maximum load factor `doubleThreeTenths`, in machine arithmetic. -/
def tieTable (n : Nat) : MyHash Nat Nat :=
  (runMachine (fun k => k) (construct doubleThreeTenths) (insertOps n)).getD
    (construct doubleThreeTenths)

/-- The states reachable in machine arithmetic from construction by `associate` and `reset`. -/
inductive ReachableMachine [DecidableEq K] (hash : K → Nat) : MyHash K V → Prop
  | construct (maxLoadFactor : ℚ) : ReachableMachine hash (construct maxLoadFactor)
  | associate {t s : MyHash K V} (key : K) (value : V) :
      ReachableMachine hash t → associateMachine hash t key value = some s →
      ReachableMachine hash s
  | reset {t : MyHash K V} : ReachableMachine hash t → ReachableMachine hash (reset t)

/-- The states reachable from construction by `associate` and `reset`. -/
inductive Reachable [DecidableEq K] (hash : K → Nat) : MyHash K V → Prop
  | construct (maxLoadFactor : ℚ) : Reachable hash (construct maxLoadFactor)
  | associate {t : MyHash K V} (key : K) (value : V) :
      Reachable hash t → Reachable hash (associate hash t key value)
  | reset {t : MyHash K V} : Reachable hash t → Reachable hash (reset t)

/-- The representation invariant of the table. -/
structure Inv (hash : K → Nat) (t : MyHash K V) : Prop where
  capacity_pos : 0 < t.m_capacity
  length_eq : t.m_map.length = t.m_capacity
  placement : ∀ i e, e ∈ t.m_map.getD i [] → hash e.1 % t.m_capacity = i
  nodup : ((entries t).map Prod.fst).Nodup
  count : t.m_items = (entries t).length
  max_pos : 0 < t.m_maxLoadFactor
  max_le : t.m_maxLoadFactor ≤ 2

end MyHash

namespace MyHash

variable {K V : Type}

/-! ## Chains -/

theorem chainLocate_eq_none_iff [DecidableEq K] (key : K) (c : List (K × V)) :
    chainLocate key c = none ↔ key ∉ c.map Prod.fst := by
  induction c with
  | nil => simp [chainLocate]
  | cons p next ih =>
    by_cases h : p.1 = key
    · simp [chainLocate, h]
    · have h2 : ¬ key = p.1 := fun e => h e.symm
      simp [chainLocate, h, h2, ih]

theorem chainLocate_some_get [DecidableEq K] (key : K) (c : List (K × V)) :
    ∀ j, chainLocate key c = some j → ∃ v, c.get? j = some (key, v) := by
  induction c with
  | nil => intro j h; simp [chainLocate] at h
  | cons p next ih =>
    intro j h
    by_cases hp : p.1 = key
    · simp [chainLocate, hp] at h
      subst h
      exact ⟨p.2, by simp [← hp]⟩
    · simp [chainLocate, hp] at h
      obtain ⟨a, ha, rfl⟩ := h
      obtain ⟨v, hv⟩ := ih a ha
      exact ⟨v, by simpa using hv⟩

theorem chainLocate_bind_get [DecidableEq K] (key : K) (c : List (K × V)) :
    (chainLocate key c).bind (fun j => (c.get? j).map Prod.snd)
      = (c.find? (fun e => decide (e.1 = key))).map Prod.snd := by
  induction c with
  | nil => simp [chainLocate]
  | cons p next ih =>
    by_cases hp : p.1 = key
    · simp [chainLocate, hp]
    · rw [List.find?_cons_of_neg _ (by simpa using hp), ← ih]
      simp only [chainLocate, hp, if_false]
      cases chainLocate key next <;> simp

theorem chainWrite_keys (value : V) (c : List (K × V)) :
    ∀ pos, (chainWrite value c pos).map Prod.fst = c.map Prod.fst := by
  induction c with
  | nil => intro pos; simp [chainWrite]
  | cons p next ih =>
    intro pos
    cases pos with
    | zero => simp [chainWrite]
    | succ n => simp [chainWrite, ih]

theorem chainLocate_congr [DecidableEq K] (key : K) (c d : List (K × V))
    (h : c.map Prod.fst = d.map Prod.fst) : chainLocate key c = chainLocate key d := by
  induction c generalizing d with
  | nil =>
    cases d with
    | nil => rfl
    | cons q rest => simp at h
  | cons p next ih =>
    cases d with
    | nil => simp at h
    | cons q rest =>
      simp only [List.map_cons, List.cons.injEq] at h
      simp [chainLocate, h.1, ih rest h.2]

theorem chainWrite_get_self (value : V) (c : List (K × V)) :
    ∀ pos e, c.get? pos = some e → (chainWrite value c pos).get? pos = some (e.1, value) := by
  induction c with
  | nil => intro pos e h; simp at h
  | cons p next ih =>
    intro pos e h
    cases pos with
    | zero => simp at h; subst h; simp [chainWrite]
    | succ n => simp at h; simpa [chainWrite] using ih n e (by simpa using h)

theorem chainWrite_get_ne (value : V) (c : List (K × V)) :
    ∀ pos j, j ≠ pos → (chainWrite value c pos).get? j = c.get? j := by
  induction c with
  | nil => intro pos j _; simp [chainWrite]
  | cons p next ih =>
    intro pos j hj
    cases pos with
    | zero =>
      cases j with
      | zero => exact absurd rfl hj
      | succ m => simp [chainWrite]
    | succ n =>
      cases j with
      | zero => simp [chainWrite]
      | succ m => simpa [chainWrite] using ih n m (by omega)

/-! ## Directory slots -/

theorem getD_set_self {α : Type} (l : List α) (i : Nat) (a d : α) (h : i < l.length) :
    (l.set i a).getD i d = a := by
  simp [List.getD_eq_getElem?_getD, List.getElem?_set_self h]

theorem getD_set_ne {α : Type} (l : List α) (i j : Nat) (a d : α) (h : i ≠ j) :
    (l.set i a).getD j d = l.getD j d := by
  simp [List.getD_eq_getElem?_getD, List.getElem?_set_ne h]

theorem mem_getD_mem_flatten {α : Type} (l : List (List α)) (i : Nat) (a : α)
    (h : a ∈ l.getD i []) : a ∈ l.flatten := by
  by_cases hi : i < l.length
  · rw [List.getD_eq_getElem _ _ hi] at h
    exact List.mem_flatten.mpr ⟨l[i], List.getElem_mem hi, h⟩
  · rw [List.getD_eq_default _ _ (by omega)] at h
    simp at h

theorem mem_flatten_getD {α : Type} (l : List (List α)) (a : α) (h : a ∈ l.flatten) :
    ∃ i, i < l.length ∧ a ∈ l.getD i [] := by
  obtain ⟨c, hc, hac⟩ := List.mem_flatten.mp h
  obtain ⟨i, hi, rfl⟩ := List.getElem_of_mem hc
  exact ⟨i, hi, by rwa [List.getD_eq_getElem _ _ hi]⟩

theorem flatten_set_cons_perm {α : Type} (l : List (List α)) (a : α) :
    ∀ i, i < l.length → (l.set i (a :: l.getD i [])).flatten.Perm (a :: l.flatten) := by
  induction l with
  | nil => intro i h; simp at h
  | cons c rest ih =>
    intro i h
    cases i with
    | zero => simp
    | succ n =>
      have hn : n < rest.length := by simpa using h
      simp only [List.set_cons_succ, List.flatten_cons, List.getD_cons_succ]
      exact ((ih n hn).append_left c).trans List.perm_middle

theorem chain_sublist_flatten {α : Type} (l : List (List α)) (i : Nat) :
    (l.getD i []).Sublist l.flatten := by
  by_cases hi : i < l.length
  · rw [List.getD_eq_getElem _ _ hi]
    exact List.sublist_flatten_of_mem (List.getElem_mem hi)
  · rw [List.getD_eq_default _ _ (by omega)]
    exact List.nil_sublist _

/-! ## Lookup -/

theorem getBucketNumber_lt (hash : K → Nat) (t : MyHash K V) (h : Inv hash t) (key : K) :
    getBucketNumber hash t key < t.m_map.length := by
  rw [h.length_eq]
  exact Nat.mod_lt _ h.capacity_pos

theorem findValue_eq_find? [DecidableEq K] (hash : K → Nat) (t : MyHash K V) (key : K) :
    findValue hash t key
      = ((t.m_map.getD (hash key % t.m_capacity) []).find?
          (fun e => decide (e.1 = key))).map Prod.snd := by
  rw [← chainLocate_bind_get]
  simp only [findValue, find, read, getBucketNumber]
  cases chainLocate key (t.m_map.getD (hash key % t.m_capacity) []) <;> rfl

theorem findValue_eq_none_iff [DecidableEq K] (hash : K → Nat) (t : MyHash K V) (key : K) :
    findValue hash t key = none
      ↔ key ∉ (t.m_map.getD (hash key % t.m_capacity) []).map Prod.fst := by
  rw [findValue_eq_find?, Option.map_eq_none', List.find?_eq_none]
  constructor
  · intro h hmem
    obtain ⟨e, he, hk⟩ := List.mem_map.mp hmem
    exact h e he (by simpa using hk)
  · intro h e he hk
    exact h (List.mem_map.mpr ⟨e, he, by simpa using hk⟩)

theorem find_eq_none_iff [DecidableEq K] (hash : K → Nat) (t : MyHash K V) (key : K) :
    find hash t key = none ↔ findValue hash t key = none := by
  rw [findValue_eq_none_iff]
  simp only [find, getBucketNumber]
  rw [Option.map_eq_none', chainLocate_eq_none_iff]

theorem findValue_eq_some_iff [DecidableEq K] (hash : K → Nat) (t : MyHash K V)
    (hinv : Inv hash t) (key : K) (v : V) :
    findValue hash t key = some v ↔ (key, v) ∈ entries t := by
  rw [findValue_eq_find?]
  constructor
  · intro h
    simp only [Option.map_eq_some'] at h
    obtain ⟨e, he, rfl⟩ := h
    have hm := List.mem_of_find?_eq_some he
    have hk : e.1 = key := by simpa using List.find?_some he
    have : (key, e.2) = e := by rw [← hk]
    rw [this]
    exact mem_getD_mem_flatten _ _ _ hm
  · intro h
    obtain ⟨i, _, hmem⟩ := mem_flatten_getD _ _ h
    have hi : hash key % t.m_capacity = i := hinv.placement i _ hmem
    rw [hi]
    cases hf : (t.m_map.getD i []).find? (fun e => decide (e.1 = key)) with
    | none =>
      have := List.find?_eq_none.mp hf _ hmem
      simp at this
    | some e =>
      have hm := List.mem_of_find?_eq_some hf
      have hk : e.1 = key := by simpa using List.find?_some hf
      have hnd : ((t.m_map.getD i []).map Prod.fst).Nodup :=
        ((chain_sublist_flatten t.m_map i).map Prod.fst).nodup hinv.nodup
      have : e = (key, v) := List.inj_on_of_nodup_map hnd hm hmem hk
      simp [this]

theorem findValue_eq_none_iff_entries [DecidableEq K] (hash : K → Nat) (t : MyHash K V)
    (hinv : Inv hash t) (key : K) :
    findValue hash t key = none ↔ key ∉ (entries t).map Prod.fst := by
  constructor
  · intro h hmem
    obtain ⟨e, he, hk⟩ := List.mem_map.mp hmem
    have : findValue hash t key = some e.2 :=
      (findValue_eq_some_iff hash t hinv key e.2).mpr (by rw [← hk]; exact he)
    rw [h] at this
    exact Option.noConfusion this
  · intro h
    cases hf : findValue hash t key with
    | none => rfl
    | some v =>
      exact absurd (List.mem_map.mpr ⟨(key, v),
        (findValue_eq_some_iff hash t hinv key v).mp hf, rfl⟩) h

/-- Two tables with the same nodes (up to order) answer every lookup alike. -/
theorem findValue_congr_of_mem [DecidableEq K] (hash : K → Nat) (t s : MyHash K V)
    (ht : Inv hash t) (hs : Inv hash s) (key : K)
    (h : ∀ v, (key, v) ∈ entries t ↔ (key, v) ∈ entries s) :
    findValue hash t key = findValue hash s key := by
  apply Option.ext
  intro v
  simp only [Option.mem_def]
  rw [findValue_eq_some_iff hash t ht, findValue_eq_some_iff hash s hs]
  exact h v

/-! ## Rehashing -/

theorem mem_getD_set_cons {α : Type} (l : List (List α)) (j i : Nat) (a e : α)
    (h : e ∈ (l.set j (a :: l.getD j [])).getD i []) :
    (e = a ∧ i = j) ∨ e ∈ l.getD i [] := by
  by_cases hij : j = i
  · subst hij
    by_cases hj : j < l.length
    · rw [getD_set_self _ _ _ _ hj] at h
      rcases List.mem_cons.mp h with h | h
      · exact Or.inl ⟨h, rfl⟩
      · exact Or.inr h
    · rw [List.getD_eq_default _ _ (by simpa using hj)] at h
      simp at h
  · rw [getD_set_ne _ _ _ _ _ hij] at h
    exact Or.inr h

theorem transferChain_length (hash : K → Nat) (t : MyHash K V) (c : List (K × V)) :
    ∀ newMap, (transferChain hash t c newMap).length = newMap.length := by
  induction c with
  | nil => intro newMap; rfl
  | cons p temp ih => intro newMap; simp [transferChain, ih]

theorem transferChain_placement (hash : K → Nat) (t : MyHash K V) (c : List (K × V)) :
    ∀ newMap, (∀ i e, e ∈ newMap.getD i [] → hash e.1 % t.m_capacity = i) →
      ∀ i e, e ∈ (transferChain hash t c newMap).getD i [] → hash e.1 % t.m_capacity = i := by
  induction c with
  | nil => intro newMap h; exact h
  | cons p temp ih =>
    intro newMap h
    apply ih
    intro i e he
    rcases mem_getD_set_cons _ _ _ _ _ he with ⟨rfl, rfl⟩ | he
    · rfl
    · exact h i e he

theorem transferChain_perm (hash : K → Nat) (t : MyHash K V) (hcap : 0 < t.m_capacity)
    (c : List (K × V)) :
    ∀ newMap, newMap.length = t.m_capacity →
      (transferChain hash t c newMap).flatten.Perm (c ++ newMap.flatten) := by
  induction c with
  | nil => intro newMap _; exact List.Perm.refl _
  | cons p temp ih =>
    intro newMap hlen
    have hidx : getBucketNumber hash t p.1 < newMap.length := by
      rw [hlen]
      exact Nat.mod_lt _ hcap
    have h1 := ih (newMap.set (getBucketNumber hash t p.1)
      (p :: newMap.getD (getBucketNumber hash t p.1) [])) (by simpa using hlen)
    have h2 := flatten_set_cons_perm newMap p _ hidx
    exact h1.trans ((h2.append_left temp).trans List.perm_middle)

theorem transferSlots_length (hash : K → Nat) (t : MyHash K V) (old : List (List (K × V)))
    (slots : List Nat) :
    ∀ newMap, (slots.foldl (fun newMap i => transferChain hash t (old.getD i []) newMap)
      newMap).length = newMap.length := by
  induction slots with
  | nil => intro newMap; rfl
  | cons i rest ih =>
    intro newMap
    rw [List.foldl_cons, ih, transferChain_length]

theorem transferSlots_placement (hash : K → Nat) (t : MyHash K V)
    (old : List (List (K × V))) (slots : List Nat) :
    ∀ newMap, (∀ i e, e ∈ newMap.getD i [] → hash e.1 % t.m_capacity = i) →
      ∀ i e, e ∈ (slots.foldl (fun newMap i => transferChain hash t (old.getD i []) newMap)
        newMap).getD i [] → hash e.1 % t.m_capacity = i := by
  induction slots with
  | nil => intro newMap h; exact h
  | cons i rest ih =>
    intro newMap h
    exact ih _ (transferChain_placement hash t _ newMap h)

theorem transferSlots_perm (hash : K → Nat) (t : MyHash K V) (hcap : 0 < t.m_capacity)
    (old : List (List (K × V))) (slots : List Nat) :
    ∀ newMap, newMap.length = t.m_capacity →
      (slots.foldl (fun newMap i => transferChain hash t (old.getD i []) newMap)
        newMap).flatten.Perm ((slots.map (fun i => old.getD i [])).flatten ++ newMap.flatten) := by
  induction slots with
  | nil => intro newMap _; exact List.Perm.refl _
  | cons i rest ih =>
    intro newMap hlen
    have h1 := ih (transferChain hash t (old.getD i []) newMap)
      (by rw [transferChain_length, hlen])
    have h2 := transferChain_perm hash t hcap (old.getD i []) newMap hlen
    simp only [List.foldl_cons, List.map_cons, List.flatten_cons, List.append_assoc]
    exact h1.trans ((h2.append_left _).trans
      (by rw [← List.append_assoc, ← List.append_assoc]
          exact List.Perm.append_right _ List.perm_append_comm))

theorem map_getD_range {α : Type} (l : List α) (d : α) :
    (List.range l.length).map (fun i => l.getD i d) = l := by
  apply List.ext_getElem
  · simp
  · intro n h1 h2
    simp [List.getD_eq_getElem?_getD, List.getElem?_eq_getElem h2]

theorem flatten_replicate_nil {α : Type} (n : Nat) :
    (List.replicate n ([] : List α)).flatten = [] := by
  induction n with
  | zero => rfl
  | succ n ih => simp [List.replicate_succ, ih]

theorem getD_replicate_nil {α : Type} (n i : Nat) :
    (List.replicate n ([] : List α)).getD i [] = [] := by
  by_cases h : i < n
  · rw [List.getD_eq_getElem _ _ (by simpa using h)]
    simp
  · rw [List.getD_eq_default _ _ (by simpa using h)]

theorem transferMap_capacity (hash : K → Nat) (t : MyHash K V) :
    (transferMap hash t).m_capacity = t.m_capacity := rfl

theorem transferMap_length (hash : K → Nat) (t : MyHash K V) :
    (transferMap hash t).m_map.length = t.m_capacity := by
  simp only [transferMap]
  rw [transferSlots_length, List.length_replicate]

theorem transferMap_placement (hash : K → Nat) (t : MyHash K V) :
    ∀ i e, e ∈ (transferMap hash t).m_map.getD i [] → hash e.1 % t.m_capacity = i := by
  apply transferSlots_placement
  intro i e he
  rw [getD_replicate_nil] at he
  simp at he

/-- Rehashing moves every node of the old directory and nothing else. -/
theorem transferMap_entries_perm (hash : K → Nat) (t : MyHash K V) (hcap : 0 < t.m_capacity)
    (hlen : t.m_map.length = t.m_capacity / 2) :
    (entries (transferMap hash t)).Perm (entries t) := by
  have h := transferSlots_perm hash t hcap t.m_map (List.range (t.m_capacity / 2))
    (List.replicate t.m_capacity []) (by simp)
  rw [← hlen, map_getD_range, flatten_replicate_nil, List.append_nil] at h
  simp only [entries, transferMap]
  rw [← hlen]
  exact h

/-! ## Writing through a pointer -/

theorem map_set_of_eq {α β : Type} (f : α → β) (d : α) (l : List α) (a : α) :
    ∀ i, f a = f (l.getD i d) → i < l.length → (l.set i a).map f = l.map f := by
  induction l with
  | nil => intro i _ h; simp at h
  | cons x rest ih =>
    intro i h hi
    cases i with
    | zero => simpa using h
    | succ n =>
      simp only [List.set_cons_succ, List.map_cons, List.cons.injEq, true_and]
      exact ih n (by simpa using h) (by simpa using hi)

theorem getD_map_keys (l : List (List (K × V))) (i : Nat) :
    (l.getD i []).map Prod.fst = (l.map (List.map Prod.fst)).getD i [] := by
  by_cases h : i < l.length
  · rw [List.getD_eq_getElem _ _ h, List.getD_eq_getElem _ _ (by simpa using h)]
    simp
  · rw [List.getD_eq_default _ _ (by omega), List.getD_eq_default _ _ (by simp; omega)]
    rfl

theorem write_keys (t : MyHash K V) (p : ValuePtr) (value : V) :
    (write t p value).m_map.map (List.map Prod.fst) = t.m_map.map (List.map Prod.fst) := by
  by_cases h : p.idx < t.m_map.length
  · exact map_set_of_eq (List.map Prod.fst) [] t.m_map _ p.idx (chainWrite_keys value _ p.pos) h
  · simp only [write]
    rw [List.set_eq_of_length_le (by omega)]

theorem find?_chainWrite [DecidableEq K] (key : K) (value : V) (c : List (K × V)) :
    ∀ j, chainLocate key c = some j → ∀ k : K,
      (chainWrite value c j).find? (fun e => decide (e.1 = k))
        = if k = key then some (key, value) else c.find? (fun e => decide (e.1 = k)) := by
  induction c with
  | nil => intro j h; simp [chainLocate] at h
  | cons p next ih =>
    intro j h k
    by_cases hp : p.1 = key
    · simp only [chainLocate, hp, if_true, Option.some.injEq] at h
      subst h
      by_cases hk : k = key
      · simp [chainWrite, hk, hp]
      · have hpk : ¬ p.1 = k := fun e => hk (e.symm.trans hp)
        simp [chainWrite, hk, hpk]
    · simp only [chainLocate, hp, if_false, Option.map_eq_some'] at h
      obtain ⟨a, ha, rfl⟩ := h
      by_cases hpk : p.1 = k
      · have hk : ¬ k = key := fun e => hp (hpk.trans e)
        simp [chainWrite, hk, hpk]
      · simp only [chainWrite]
        rw [List.find?_cons_of_neg _ (by simpa using hpk),
          List.find?_cons_of_neg _ (by simpa using hpk)]
        exact ih a ha k

theorem find_some_bounds [DecidableEq K] (hash : K → Nat) (t : MyHash K V) (key : K)
    (p : ValuePtr) (h : find hash t key = some p) :
    p.idx = hash key % t.m_capacity ∧ p.idx < t.m_map.length
      ∧ chainLocate key (t.m_map.getD p.idx []) = some p.pos := by
  simp only [find, getBucketNumber, Option.map_eq_some'] at h
  obtain ⟨j, hj, rfl⟩ := h
  refine ⟨rfl, ?_, hj⟩
  by_contra hlt
  rw [List.getD_eq_default _ _ (by simpa using hlt)] at hj
  simp [chainLocate] at hj

theorem findValue_write [DecidableEq K] (hash : K → Nat) (t : MyHash K V) (key : K)
    (p : ValuePtr) (value : V) (h : find hash t key = some p) (k : K) :
    findValue hash (write t p value) k = if k = key then some value else findValue hash t k := by
  obtain ⟨hidx, hlt, hloc⟩ := find_some_bounds hash t key p h
  rw [findValue_eq_find?, findValue_eq_find?]
  have hcap : (write t p value).m_capacity = t.m_capacity := rfl
  rw [hcap]
  by_cases hs : hash k % t.m_capacity = p.idx
  · rw [hs]
    simp only [write]
    rw [getD_set_self _ _ _ _ hlt, find?_chainWrite key value _ _ hloc k]
    by_cases hk : k = key
    · simp [hk]
    · simp [hk]
  · have hk : ¬ k = key := fun e => hs (by rw [e, hidx])
    simp only [write, hk, if_false]
    rw [getD_set_ne _ _ _ _ _ (fun e => hs e.symm)]

theorem find_write [DecidableEq K] (hash : K → Nat) (t : MyHash K V) (p : ValuePtr)
    (value : V) (k : K) : find hash (write t p value) k = find hash t k := by
  simp only [find, getBucketNumber]
  have hcap : (write t p value).m_capacity = t.m_capacity := rfl
  rw [hcap]
  congr 1
  apply chainLocate_congr
  rw [getD_map_keys, getD_map_keys, write_keys]

/-! ## The representation invariant -/

theorem associate_of_find_some [DecidableEq K] (hash : K → Nat) (t : MyHash K V) (key : K)
    (value : V) (p : ValuePtr) (h : find hash t key = some p) :
    associate hash t key value = write t p value := by
  simp only [associate, h]

theorem associate_of_find_none [DecidableEq K] (hash : K → Nat) (t : MyHash K V) (key : K)
    (value : V) (h : find hash t key = none) :
    associate hash t key value
      = linkFront hash
          (if (countItem t).m_currLoadFactor > (countItem t).m_maxLoadFactor
            then grow hash (countItem t) else countItem t) key value := by
  simp only [associate, h]
  rfl

theorem Inv_construct (hash : K → Nat) (m : ℚ) : Inv hash (construct m : MyHash K V) where
  capacity_pos := by simp [construct]
  length_eq := by simp [construct]
  placement := by
    intro i e he
    simp only [construct] at he
    rw [getD_replicate_nil] at he
    simp at he
  nodup := by simp [entries, construct, flatten_replicate_nil]
  count := by simp [entries, construct, flatten_replicate_nil]
  max_pos := by
    simp only [construct]
    split_ifs with h1 h2
    · norm_num
    · norm_num
    · exact lt_of_not_ge h1
  max_le := by
    simp only [construct]
    split_ifs with h1 h2
    · norm_num
    · norm_num
    · exact le_of_not_gt h2

theorem Inv_reset (hash : K → Nat) (t : MyHash K V) (h : Inv hash t) : Inv hash (reset t) where
  capacity_pos := by simp [reset]
  length_eq := by simp [reset]
  placement := by
    intro i e he
    simp only [reset] at he
    rw [getD_replicate_nil] at he
    simp at he
  nodup := by simp [entries, reset, flatten_replicate_nil]
  count := by simp [entries, reset, flatten_replicate_nil]
  max_pos := h.max_pos
  max_le := h.max_le

theorem entries_keys (t : MyHash K V) :
    (entries t).map Prod.fst = (t.m_map.map (List.map Prod.fst)).flatten := by
  simp [entries, List.map_flatten]

theorem Inv_of_keys_eq (hash : K → Nat) (t s : MyHash K V)
    (hkeys : s.m_map.map (List.map Prod.fst) = t.m_map.map (List.map Prod.fst))
    (hitems : s.m_items = t.m_items) (hcap : s.m_capacity = t.m_capacity)
    (hmax : s.m_maxLoadFactor = t.m_maxLoadFactor) (h : Inv hash t) : Inv hash s where
  capacity_pos := hcap ▸ h.capacity_pos
  length_eq := by
    have := congrArg List.length hkeys
    simp only [List.length_map] at this
    rw [this, hcap]
    exact h.length_eq
  placement := by
    intro i e he
    have h1 : e.1 ∈ (s.m_map.getD i []).map Prod.fst := List.mem_map_of_mem _ he
    rw [getD_map_keys, hkeys, ← getD_map_keys] at h1
    obtain ⟨e2, he2, hk⟩ := List.mem_map.mp h1
    rw [hcap, ← hk]
    exact h.placement i e2 he2
  nodup := by
    rw [entries_keys, hkeys, ← entries_keys]
    exact h.nodup
  count := by
    have h1 : (entries s).length = ((entries s).map Prod.fst).length := by simp
    have h2 : (entries t).length = ((entries t).map Prod.fst).length := by simp
    rw [hitems, h.count, h1, h2, entries_keys, entries_keys, hkeys]
  max_pos := hmax ▸ h.max_pos
  max_le := hmax ▸ h.max_le

theorem Inv_write (hash : K → Nat) (t : MyHash K V) (p : ValuePtr) (value : V)
    (h : Inv hash t) : Inv hash (write t p value) :=
  Inv_of_keys_eq hash t _ (write_keys t p value) rfl rfl rfl h

theorem entries_linkFront_perm (hash : K → Nat) (t : MyHash K V) (key : K) (value : V)
    (hcap : 0 < t.m_capacity) (hlen : t.m_map.length = t.m_capacity) :
    (entries (linkFront hash t key value)).Perm ((key, value) :: entries t) := by
  simp only [entries, linkFront, getBucketNumber]
  exact flatten_set_cons_perm _ _ _ (by rw [hlen]; exact Nat.mod_lt _ hcap)

theorem Inv_linkFront (hash : K → Nat) (t : MyHash K V) (key : K) (value : V)
    (hcap : 0 < t.m_capacity) (hlen : t.m_map.length = t.m_capacity)
    (hplace : ∀ i e, e ∈ t.m_map.getD i [] → hash e.1 % t.m_capacity = i)
    (hnodup : ((entries t).map Prod.fst).Nodup)
    (hcount : t.m_items = (entries t).length + 1)
    (hpos : 0 < t.m_maxLoadFactor) (hle : t.m_maxLoadFactor ≤ 2)
    (hnew : key ∉ (entries t).map Prod.fst) :
    Inv hash (linkFront hash t key value) where
  capacity_pos := hcap
  length_eq := by simpa [linkFront] using hlen
  placement := by
    intro i e he
    simp only [linkFront] at he
    rcases mem_getD_set_cons _ _ _ _ _ he with ⟨rfl, rfl⟩ | he
    · rfl
    · exact hplace i e he
  nodup := by
    have hp := (entries_linkFront_perm hash t key value hcap hlen).map Prod.fst
    rw [hp.nodup_iff]
    simpa using ⟨by simpa using hnew, hnodup⟩
  count := by
    have hp := (entries_linkFront_perm hash t key value hcap hlen).length_eq
    rw [hp]
    simpa [linkFront] using hcount
  max_pos := hpos
  max_le := hle

theorem grow_entries_perm (hash : K → Nat) (t : MyHash K V)
    (hcap : 0 < t.m_capacity) (hlen : t.m_map.length = t.m_capacity) :
    (entries (grow hash t)).Perm (entries t) := by
  have h := transferMap_entries_perm hash { t with m_capacity := t.m_capacity * 2 }
    (by simpa using hcap) (by simpa using hlen)
  exact h

/-! ## One call of `associate` -/

/-- The table between the growth test and the insertion of the new node. -/
theorem pending_facts (hash : K → Nat) (t : MyHash K V) (h : Inv hash t) :
    let s := if (countItem t).m_currLoadFactor > (countItem t).m_maxLoadFactor
      then grow hash (countItem t) else countItem t
    0 < s.m_capacity ∧ s.m_map.length = s.m_capacity
      ∧ (∀ i e, e ∈ s.m_map.getD i [] → hash e.1 % s.m_capacity = i)
      ∧ (entries s).Perm (entries t) ∧ s.m_items = t.m_items + 1
      ∧ s.m_maxLoadFactor = t.m_maxLoadFactor := by
  intro s
  by_cases hg : (countItem t).m_currLoadFactor > (countItem t).m_maxLoadFactor
  · have hs : s = grow hash (countItem t) := if_pos hg
    rw [hs]
    have hc : (grow hash (countItem t)).m_capacity = t.m_capacity * 2 := rfl
    refine ⟨?_, ?_, ?_, ?_, rfl, rfl⟩
    · rw [hc]
      exact Nat.mul_pos h.capacity_pos (by decide)
    · exact transferMap_length hash _
    · exact transferMap_placement hash _
    · exact grow_entries_perm hash (countItem t) h.capacity_pos h.length_eq
  · have hs : s = countItem t := if_neg hg
    rw [hs]
    exact ⟨h.capacity_pos, h.length_eq, h.placement, List.Perm.refl _, rfl, rfl⟩

theorem Inv_associate [DecidableEq K] (hash : K → Nat) (t : MyHash K V) (key : K) (value : V)
    (h : Inv hash t) : Inv hash (associate hash t key value) := by
  cases hf : find hash t key with
  | some p =>
    rw [associate_of_find_some hash t key value p hf]
    exact Inv_write hash t p value h
  | none =>
    rw [associate_of_find_none hash t key value hf]
    obtain ⟨h1, h2, h3, h4, h5, h6⟩ := pending_facts hash t h
    have hnew : key ∉ (entries t).map Prod.fst :=
      (findValue_eq_none_iff_entries hash t h key).mp ((find_eq_none_iff hash t key).mp hf)
    apply Inv_linkFront hash _ key value h1 h2 h3
    · exact ((h4.map Prod.fst).nodup_iff).mpr h.nodup
    · rw [h5, h4.length_eq, h.count]
    · rw [h6]; exact h.max_pos
    · rw [h6]; exact h.max_le
    · intro hmem
      exact hnew ((h4.map Prod.fst).mem_iff.mp hmem)

theorem entries_associate_perm [DecidableEq K] (hash : K → Nat) (t : MyHash K V) (key : K)
    (value : V) (h : Inv hash t) (hf : find hash t key = none) :
    (entries (associate hash t key value)).Perm ((key, value) :: entries t) := by
  rw [associate_of_find_none hash t key value hf]
  obtain ⟨h1, h2, _, h4, _, _⟩ := pending_facts hash t h
  exact (entries_linkFront_perm hash _ key value h1 h2).trans (h4.cons _)

/-- What `find` observes after `associate(key, value)`, for every key. -/
theorem findValue_associate [DecidableEq K] (hash : K → Nat) (t : MyHash K V) (key : K)
    (value : V) (h : Inv hash t) (k : K) :
    findValue hash (associate hash t key value) k
      = if k = key then some value else findValue hash t k := by
  cases hf : find hash t key with
  | some p =>
    rw [associate_of_find_some hash t key value p hf]
    exact findValue_write hash t key p value hf k
  | none =>
    have hinv := Inv_associate hash t key value h
    have hperm := entries_associate_perm hash t key value h hf
    have hnew : key ∉ (entries t).map Prod.fst :=
      (findValue_eq_none_iff_entries hash t h key).mp ((find_eq_none_iff hash t key).mp hf)
    by_cases hk : k = key
    · subst hk
      rw [if_pos rfl, findValue_eq_some_iff hash _ hinv]
      exact hperm.mem_iff.mpr (List.mem_cons_self _ _)
    · rw [if_neg hk]
      apply findValue_congr_of_mem hash _ _ hinv h
      intro v
      rw [hperm.mem_iff, List.mem_cons]
      constructor
      · rintro (heq | hmem)
        · exact absurd (congrArg Prod.fst heq) hk
        · exact hmem
      · exact Or.inr

theorem m_items_associate [DecidableEq K] (hash : K → Nat) (t : MyHash K V) (key : K)
    (value : V) :
    (associate hash t key value).m_items
      = if find hash t key = none then t.m_items + 1 else t.m_items := by
  cases hf : find hash t key with
  | some p => rw [associate_of_find_some hash t key value p hf]; simp [write]
  | none =>
    rw [associate_of_find_none hash t key value hf, if_pos rfl]
    simp only [linkFront]
    split_ifs <;> rfl

theorem countItem_loadFactor (t : MyHash K V) :
    (countItem t).m_currLoadFactor = ((t.m_items : ℚ) + 1) / (t.m_capacity : ℚ) := by
  simp [countItem, getNumItems]

theorem m_capacity_associate [DecidableEq K] (hash : K → Nat) (t : MyHash K V) (key : K)
    (value : V) :
    (associate hash t key value).m_capacity
      = if find hash t key = none
            ∧ t.m_maxLoadFactor < ((t.m_items : ℚ) + 1) / (t.m_capacity : ℚ)
          then t.m_capacity * 2 else t.m_capacity := by
  cases hf : find hash t key with
  | some p => rw [associate_of_find_some hash t key value p hf]; simp [write]
  | none =>
    rw [associate_of_find_none hash t key value hf]
    simp only [linkFront, true_and]
    rw [← countItem_loadFactor]
    have hm : (countItem t).m_maxLoadFactor = t.m_maxLoadFactor := rfl
    rw [← hm]
    split_ifs <;> rfl

theorem m_maxLoadFactor_associate [DecidableEq K] (hash : K → Nat) (t : MyHash K V) (key : K)
    (value : V) : (associate hash t key value).m_maxLoadFactor = t.m_maxLoadFactor := by
  cases hf : find hash t key with
  | some p => rw [associate_of_find_some hash t key value p hf]; rfl
  | none =>
    rw [associate_of_find_none hash t key value hf]
    simp only [linkFront]
    split_ifs <;> rfl

theorem m_currLoadFactor_associate [DecidableEq K] (hash : K → Nat) (t : MyHash K V) (key : K)
    (value : V) :
    (associate hash t key value).m_currLoadFactor
      = if find hash t key = none then ((t.m_items : ℚ) + 1) / (t.m_capacity : ℚ)
          else t.m_currLoadFactor := by
  cases hf : find hash t key with
  | some p => rw [associate_of_find_some hash t key value p hf]; simp [write]
  | none =>
    rw [associate_of_find_none hash t key value hf, if_pos rfl, ← countItem_loadFactor]
    simp only [linkFront]
    split_ifs <;> rfl

/-! ## Reachable states and sequences of calls -/

theorem Reachable.inv [DecidableEq K] {hash : K → Nat} {t : MyHash K V}
    (h : Reachable hash t) : Inv hash t := by
  induction h with
  | construct m => exact Inv_construct hash m
  | associate key value _ ih => exact Inv_associate hash _ key value ih
  | reset _ ih => exact Inv_reset hash _ ih

theorem associateAll_append [DecidableEq K] (hash : K → Nat) (t : MyHash K V)
    (xs ys : List (K × V)) :
    associateAll hash t (xs ++ ys) = associateAll hash (associateAll hash t xs) ys := by
  simp [associateAll, List.foldl_append]

theorem associateAll_cons [DecidableEq K] (hash : K → Nat) (t : MyHash K V) (kv : K × V)
    (ys : List (K × V)) :
    associateAll hash t (kv :: ys) = associateAll hash (associate hash t kv.1 kv.2) ys := rfl

theorem Reachable_associateAll [DecidableEq K] (hash : K → Nat) (calls : List (K × V)) :
    ∀ t : MyHash K V, Reachable hash t → Reachable hash (associateAll hash t calls) := by
  induction calls with
  | nil => intro t h; exact h
  | cons kv rest ih =>
    intro t h
    exact ih _ (Reachable.associate kv.1 kv.2 h)

theorem Reachable_run [DecidableEq K] (hash : K → Nat) (ops : List (Op K V)) :
    ∀ t : MyHash K V, Reachable hash t → Reachable hash (run hash t ops) := by
  induction ops with
  | nil => intro t h; exact h
  | cons op rest ih =>
    intro t h
    cases op with
    | associate key value => exact ih _ (Reachable.associate key value h)
    | reset => exact ih _ (Reachable.reset h)

theorem findValue_construct [DecidableEq K] (hash : K → Nat) (m : ℚ) (k : K) :
    findValue hash (construct m : MyHash K V) k = none := by
  rw [findValue_eq_none_iff]
  simp only [construct]
  rw [getD_replicate_nil]
  simp

theorem findValue_reset [DecidableEq K] (hash : K → Nat) (t : MyHash K V) (k : K) :
    findValue hash (reset t) k = none := by
  rw [findValue_eq_none_iff]
  simp only [reset]
  rw [getD_replicate_nil]
  simp

theorem associateAll_snoc [DecidableEq K] (hash : K → Nat) (t : MyHash K V)
    (xs : List (K × V)) (kv : K × V) :
    associateAll hash t (xs ++ [kv]) = associate hash (associateAll hash t xs) kv.1 kv.2 := by
  rw [associateAll_append]
  rfl

/-- A key is absent after a sequence of calls exactly when none of the calls had that key. -/
theorem findValue_associateAll_eq_none [DecidableEq K] (hash : K → Nat) (m : ℚ)
    (calls : List (K × V)) (k : K) :
    findValue hash (associateAll hash (construct m) calls) k = none
      ↔ k ∉ calls.map Prod.fst := by
  induction calls using List.reverseRecOn with
  | nil => simp [associateAll, findValue_construct]
  | append_singleton xs kv ih =>
    have hinv : Inv hash (associateAll hash (construct m : MyHash K V) xs) :=
      (Reachable_associateAll hash xs _ (Reachable.construct m)).inv
    rw [associateAll_snoc, findValue_associate hash _ kv.1 kv.2 hinv k]
    by_cases hk : k = kv.1
    · simp [hk]
    · simp only [hk, if_false, List.map_append, List.map_cons, List.map_nil, List.mem_append,
        List.mem_singleton, or_false]
      exact ih

theorem m_items_associateAll [DecidableEq K] (hash : K → Nat) (m : ℚ) (calls : List (K × V)) :
    (associateAll hash (construct m) calls).m_items = (calls.map Prod.fst).toFinset.card := by
  induction calls using List.reverseRecOn with
  | nil => simp [associateAll, construct]
  | append_singleton xs kv ih =>
    have hiff := findValue_associateAll_eq_none hash m xs kv.1
    rw [associateAll_snoc, m_items_associate, ih]
    simp only [List.map_append, List.map_cons, List.map_nil, List.toFinset_append,
      List.toFinset_cons, List.toFinset_nil]
    by_cases hk : kv.1 ∈ xs.map Prod.fst
    · have hf : ¬ find hash (associateAll hash (construct m) xs) kv.1 = none := by
        rw [find_eq_none_iff, hiff]
        exact not_not.mpr hk
      rw [if_neg hf]
      congr 1
      ext a
      simp only [Finset.mem_union, List.mem_toFinset, Finset.mem_insert, Finset.mem_singleton]
      constructor
      · exact Or.inl
      · rintro (h | h | h)
        · exact h
        · rw [h]; exact hk
        · simp at h
    · have hf : find hash (associateAll hash (construct m) xs) kv.1 = none := by
        rw [find_eq_none_iff, hiff]
        exact hk
      rw [if_pos hf, Finset.union_comm, insert_emptyc_eq, ← Finset.insert_eq,
        Finset.card_insert_of_not_mem (fun h => hk (List.mem_toFinset.mp h))]

/-! ## Sequences of calls from a fresh table -/

theorem m_maxLoadFactor_associateAll [DecidableEq K] (hash : K → Nat) (calls : List (K × V)) :
    ∀ t : MyHash K V, (associateAll hash t calls).m_maxLoadFactor = t.m_maxLoadFactor := by
  induction calls with
  | nil => intro t; rfl
  | cons kv rest ih =>
    intro t
    rw [associateAll_cons, ih, m_maxLoadFactor_associate]

theorem construct_half_max : (construct (1 / 2) : MyHash K V).m_maxLoadFactor = 1 / 2 := by
  simp only [construct]
  norm_num

/-- With the default maximum load factor, up to 50 distinct keys fit in the 100 slots. -/
theorem capacity_upto_50 [DecidableEq K] (hash : K → Nat) (calls : List (K × V)) :
    (calls.map Prod.fst).Nodup → calls.length ≤ 50 →
      (associateAll hash (construct (1 / 2)) calls).m_capacity = 100 := by
  induction calls using List.reverseRecOn with
  | nil => intro _ _; rfl
  | append_singleton xs kv ih =>
    intro hnd hlen
    simp only [List.map_append, List.map_cons, List.map_nil] at hnd
    simp only [List.length_append, List.length_singleton] at hlen
    have hxs : (xs.map Prod.fst).Nodup := (List.nodup_append.mp hnd).1
    have hcap := ih hxs (by omega)
    have hitems : (associateAll hash (construct (1 / 2)) xs).m_items = xs.length := by
      rw [m_items_associateAll, List.toFinset_card_of_nodup hxs, List.length_map]
    rw [associateAll_snoc, m_capacity_associate, hcap, hitems, m_maxLoadFactor_associateAll,
      construct_half_max]
    have hq : ¬ ((1 : ℚ) / 2 < ((xs.length : ℚ) + 1) / ((100 : ℕ) : ℚ)) := by
      have : (xs.length : ℚ) + 1 ≤ 50 := by exact_mod_cast (by omega : xs.length + 1 ≤ 50)
      rw [not_lt, div_le_iff₀ (by norm_num)]
      norm_num
      linarith
    rw [if_neg (fun h => hq h.2)]

theorem capacity_at_51 [DecidableEq K] (hash : K → Nat) (calls : List (K × V))
    (hnd : (calls.map Prod.fst).Nodup) (hlen : calls.length = 51) :
    (associateAll hash (construct (1 / 2)) calls).m_capacity = 200 := by
  rcases List.eq_nil_or_concat calls with rfl | ⟨xs, kv, hc⟩
  · simp at hlen
  · rw [List.concat_eq_append] at hc
    subst hc
    simp only [List.map_append, List.map_cons, List.map_nil] at hnd
    simp only [List.length_append, List.length_singleton] at hlen
    have hxs : (xs.map Prod.fst).Nodup := (List.nodup_append.mp hnd).1
    have hnew : kv.1 ∉ xs.map Prod.fst := by
      intro hmem
      exact (List.nodup_append.mp hnd).2.2 hmem (List.mem_singleton_self _)
    have hcap := capacity_upto_50 hash xs hxs (by omega)
    have hitems : (associateAll hash (construct (1 / 2)) xs).m_items = xs.length := by
      rw [m_items_associateAll, List.toFinset_card_of_nodup hxs, List.length_map]
    have hfind : find hash (associateAll hash (construct (1 / 2)) xs) kv.1 = none := by
      rw [find_eq_none_iff, findValue_associateAll_eq_none]
      exact hnew
    rw [associateAll_snoc, m_capacity_associate, hcap, hitems, m_maxLoadFactor_associateAll,
      construct_half_max]
    have hx : xs.length = 50 := by omega
    have hq : (1 : ℚ) / 2 < ((xs.length : ℚ) + 1) / ((100 : ℕ) : ℚ) := by
      rw [hx]
      norm_num
    rw [if_pos ⟨hfind, hq⟩]

/-! ## The contract of the table -/

/-- C3, evaluated on the code: with the default maximum load factor 1/2 and the 51 distinct
keys `0 .. 50`, the 51st call grows the table to 200 slots, and `getLoadFactor()` is then
51/100, computed before the growth, and not `getNumItems()` / capacity = 51/200. -/
theorem loadFactor_stale_after_growth :
    getLoadFactor (associateAll (fun n => n) (construct (1 / 2)) (distinctCalls 51)) = 51 / 100
      ∧ getNumItems (associateAll (fun n => n) (construct (1 / 2)) (distinctCalls 51)) = 51
      ∧ (associateAll (fun n => n) (construct (1 / 2)) (distinctCalls 51)).m_capacity = 200
      ∧ getLoadFactor (associateAll (fun n => n) (construct (1 / 2)) (distinctCalls 51))
          ≠ (getNumItems (associateAll (fun n => n) (construct (1 / 2)) (distinctCalls 51)) : ℚ)
            / ((associateAll (fun n => n) (construct (1 / 2)) (distinctCalls 51)).m_capacity : ℚ) := by
  decide!

/-- C4: growth preserves lookups. When `associate(k, v)` on a reachable table doubles the
capacity, every other key that `find` found before the call is found after it, with the same
value, in a directory of twice as many slots. -/
theorem growth_preserves_lookups [DecidableEq K] (hash : K → Nat) (t : MyHash K V) (k : K)
    (v : V) (k' : K) (x : V) (hreach : Reachable hash t)
    (hgrow : (associate hash t k v).m_capacity = 2 * t.m_capacity) (hne : k' ≠ k)
    (hfound : findValue hash t k' = some x) :
    findValue hash (associate hash t k v) k' = some x
      ∧ (associate hash t k v).m_map.length = 2 * t.m_map.length := by
  constructor
  · rw [findValue_associate hash t k v hreach.inv k', if_neg hne]
    exact hfound
  · rw [(Inv_associate hash t k v hreach.inv).length_eq, hgrow, hreach.inv.length_eq]

/-- Witness of C4: maximum load factor 1/100, the second insertion doubles the 100 slots. -/
theorem growth_preserves_lookups_witness :
    Reachable (fun n => n) (associate (fun n => n) (construct (1 / 100)) 1 10 : MyHash Nat Nat)
      ∧ (associate (fun n => n)
            (associate (fun n => n) (construct (1 / 100)) 1 10 : MyHash Nat Nat) 2 20).m_capacity
          = 2 * (associate (fun n => n) (construct (1 / 100)) 1 10 : MyHash Nat Nat).m_capacity
      ∧ findValue (fun n => n)
            (associate (fun n => n) (construct (1 / 100)) 1 10 : MyHash Nat Nat) 1 = some 10
      ∧ findValue (fun n => n) (associate (fun n => n)
            (associate (fun n => n) (construct (1 / 100)) 1 10 : MyHash Nat Nat) 2 20) 1
          = some 10
      ∧ (associate (fun n => n)
            (associate (fun n => n) (construct (1 / 100)) 1 10 : MyHash Nat Nat) 2 20).m_map.length
          = 2 * (associate (fun n => n) (construct (1 / 100)) 1 10 :
              MyHash Nat Nat).m_map.length :=
  ⟨Reachable.associate 1 10 (Reachable.construct (1 / 100)), by decide!, by decide!,
    growth_preserves_lookups (fun n => n) (associate (fun n => n) (construct (1 / 100)) 1 10)
      2 20 1 10 (Reachable.associate 1 10 (Reachable.construct (1 / 100)))
      (by decide!) (by decide) (by decide!)⟩

/-- C5: with maximum load factor 1/2 and any hash function, associating 51 pairwise distinct
keys leaves the capacity at 100 after each of the first 50 calls and makes it 200 after the
51st. -/
theorem growth_on_51st_insertion [DecidableEq K] (hash : K → Nat) (calls : List (K × V))
    (hlen : calls.length = 51) (hdistinct : (calls.map Prod.fst).Nodup) :
    (∀ n, n ≤ 50 →
        (associateAll hash (construct (1 / 2)) (calls.take n)).m_capacity = 100)
      ∧ (associateAll hash (construct (1 / 2)) calls).m_capacity = 200 := by
  refine ⟨?_, capacity_at_51 hash calls hdistinct hlen⟩
  intro n hn
  apply capacity_upto_50 hash
  · exact ((List.take_sublist n calls).map Prod.fst).nodup hdistinct
  · rw [List.length_take]
    omega

/-- Witness of C5: the keys `0 .. 50`. -/
theorem growth_on_51st_insertion_witness :
    (distinctCalls 51).length = 51 ∧ ((distinctCalls 51).map Prod.fst).Nodup
      ∧ (∀ n, n ≤ 50 →
          (associateAll (fun n => n) (construct (1 / 2))
            ((distinctCalls 51).take n)).m_capacity = 100)
      ∧ (associateAll (fun n => n) (construct (1 / 2)) (distinctCalls 51)).m_capacity = 200 :=
  ⟨by decide, by decide,
    growth_on_51st_insertion (fun n => n) (distinctCalls 51) (by decide) (by decide)⟩

/-- C6: `reset()` on a reachable table gives exactly the table that construction with the
same maximum load factor gives: 100 empty slots, no items, load factor 0, the maximum load
factor kept, and `find` returns `nullptr` for every key. -/
theorem reset_eq_construct [DecidableEq K] (hash : K → Nat) (t : MyHash K V)
    (hreach : Reachable hash t) :
    reset t = construct t.m_maxLoadFactor
      ∧ (reset t).m_capacity = 100
      ∧ (reset t).m_map = List.replicate 100 []
      ∧ getNumItems (reset t) = 0
      ∧ getLoadFactor (reset t) = 0
      ∧ (reset t).m_maxLoadFactor = t.m_maxLoadFactor
      ∧ ∀ k, findValue hash (reset t) k = none := by
  refine ⟨?_, rfl, rfl, rfl, rfl, rfl, findValue_reset hash t⟩
  have h1 : ¬ t.m_maxLoadFactor ≤ 0 := not_le.mpr hreach.inv.max_pos
  have h2 : ¬ t.m_maxLoadFactor > 2 := not_lt.mpr hreach.inv.max_le
  simp only [reset, construct, h1, h2, if_false]

/-- Witness of C6: a table holding one key. -/
theorem reset_eq_construct_witness :
    Reachable (fun n => n) (associate (fun n => n) (construct (1 / 2)) 1 10 : MyHash Nat Nat)
      ∧ reset (associate (fun n => n) (construct (1 / 2)) 1 10 : MyHash Nat Nat)
          = construct (associate (fun n => n) (construct (1 / 2)) 1 10 :
              MyHash Nat Nat).m_maxLoadFactor
      ∧ findValue (fun n => n)
          (reset (associate (fun n => n) (construct (1 / 2)) 1 10 : MyHash Nat Nat)) 1 = none :=
  ⟨Reachable.associate 1 10 (Reachable.construct (1 / 2)),
    (reset_eq_construct (fun n => n) (associate (fun n => n) (construct (1 / 2)) 1 10)
      (Reachable.associate 1 10 (Reachable.construct (1 / 2)))).1,
    (reset_eq_construct (fun n => n) (associate (fun n => n) (construct (1 / 2)) 1 10)
      (Reachable.associate 1 10 (Reachable.construct (1 / 2)))).2.2.2.2.2.2 1⟩

/-- C7: clamping of the maximum load factor. `construct(m)` is `construct(0.5)` for `m ≤ 0`
and `construct(2.0)` for `m > 2`, and keeps `m` for `0 < m ≤ 2`; so `construct(0)` and
`construct(0.5)`, and `construct(5.0)` and `construct(2.0)`, are the same table after every
sequence of operations. -/
theorem construct_clamps [DecidableEq K] (hash : K → Nat) (m : ℚ) (ops : List (Op K V)) :
    (m ≤ 0 → (construct m : MyHash K V) = construct (1 / 2))
      ∧ (2 < m → (construct m : MyHash K V) = construct 2)
      ∧ (0 < m → m ≤ 2 → (construct m : MyHash K V).m_maxLoadFactor = m)
      ∧ run hash (construct 0) ops = run hash (construct (1 / 2)) ops
      ∧ run hash (construct 5) ops = run hash (construct 2) ops := by
  have h0 : (construct 0 : MyHash K V) = construct (1 / 2) := by
    simp only [construct]
    norm_num
  have h5 : (construct 5 : MyHash K V) = construct 2 := by
    simp only [construct]
    norm_num
  refine ⟨?_, ?_, ?_, by rw [h0], by rw [h5]⟩
  · intro hm
    simp only [construct, hm, if_true]
    norm_num
  · intro hm
    have h1 : ¬ m ≤ 0 := by linarith
    simp only [construct, h1, if_false, gt_iff_lt, hm, if_true]
    norm_num
  · intro hpos hle
    have h1 : ¬ m ≤ 0 := not_le.mpr hpos
    have h2 : ¬ m > 2 := not_lt.mpr hle
    simp only [construct, h1, h2, if_false]

/-- Witness of C7: the arguments -1, 3 and 1. -/
theorem construct_clamps_witness :
    ((-1 : ℚ) ≤ 0 ∧ (construct (-1) : MyHash Nat Nat) = construct (1 / 2))
      ∧ ((2 : ℚ) < 3 ∧ (construct 3 : MyHash Nat Nat) = construct 2)
      ∧ ((0 : ℚ) < 1 ∧ (1 : ℚ) ≤ 2 ∧ (construct 1 : MyHash Nat Nat).m_maxLoadFactor = 1) :=
  ⟨⟨by norm_num, (construct_clamps (fun n => n) (-1) []).1 (by norm_num)⟩,
    ⟨by norm_num, (construct_clamps (fun n => n) 3 []).2.1 (by norm_num)⟩,
    ⟨by norm_num, by norm_num,
      (construct_clamps (fun n => n) 1 []).2.2.1 (by norm_num) (by norm_num)⟩⟩

/-- C9: update path of `associate`. When `find(k)` finds a value, `associate(k, v)` makes
`find(k)` return `v` and changes neither the item count, the capacity, the stored load factor,
nor the keys at any position of any chain; every node with another key is unchanged. -/
theorem associate_update_path [DecidableEq K] (hash : K → Nat) (t : MyHash K V) (k : K)
    (v x : V) (hfound : findValue hash t k = some x) :
    findValue hash (associate hash t k v) k = some v
      ∧ getNumItems (associate hash t k v) = getNumItems t
      ∧ (associate hash t k v).m_capacity = t.m_capacity
      ∧ getLoadFactor (associate hash t k v) = getLoadFactor t
      ∧ (associate hash t k v).m_map.map (List.map Prod.fst)
          = t.m_map.map (List.map Prod.fst)
      ∧ ∀ i j e, (t.m_map.getD i []).get? j = some e → e.1 ≠ k →
          ((associate hash t k v).m_map.getD i []).get? j = some e := by
  cases hf : find hash t k with
  | none =>
    rw [(find_eq_none_iff hash t k).mp hf] at hfound
    exact Option.noConfusion hfound
  | some p =>
    obtain ⟨_, hlt, hloc⟩ := find_some_bounds hash t k p hf
    rw [associate_of_find_some hash t k v p hf]
    refine ⟨?_, rfl, rfl, rfl, write_keys t p v, ?_⟩
    · rw [findValue_write hash t k p v hf k, if_pos rfl]
    · intro i j e he hne
      simp only [write]
      by_cases hi : p.idx = i
      · subst hi
        rw [getD_set_self _ _ _ _ hlt]
        by_cases hj : j = p.pos
        · subst hj
          obtain ⟨y, hy⟩ := chainLocate_some_get k _ _ hloc
          rw [hy] at he
          exact absurd (congrArg Prod.fst (Option.some.inj he)).symm hne
        · rw [chainWrite_get_ne v _ _ _ hj]
          exact he
      · rw [getD_set_ne _ _ _ _ _ hi]
        exact he

/-- Witness of C9: a second call on a stored key. -/
theorem associate_update_path_witness :
    findValue (fun n => n) (associate (fun n => n) (construct (1 / 2)) 1 10 : MyHash Nat Nat) 1
        = some 10
      ∧ findValue (fun n => n) (associate (fun n => n)
          (associate (fun n => n) (construct (1 / 2)) 1 10 : MyHash Nat Nat) 1 30) 1 = some 30 :=
  ⟨by decide!,
    (associate_update_path (fun n => n) (associate (fun n => n) (construct (1 / 2)) 1 10)
      1 30 10 (by decide!)).1⟩

/-- C10: writing `w` through the pointer that the mutable `find(k)` returned makes `find(k)`,
in either form, return the same node with the value `w`, and leaves `getNumItems()`
unchanged. -/
theorem write_through_find [DecidableEq K] (hash : K → Nat) (t : MyHash K V) (k : K)
    (p : ValuePtr) (w : V) (hfind : find hash t k = some p) :
    find hash (write t p w) k = some p
      ∧ read (write t p w) p = some w
      ∧ findValue hash (write t p w) k = some w
      ∧ getNumItems (write t p w) = getNumItems t := by
  have h1 : find hash (write t p w) k = some p := by rw [find_write, hfind]
  have h3 : findValue hash (write t p w) k = some w := by
    rw [findValue_write hash t k p w hfind k, if_pos rfl]
  refine ⟨h1, ?_, h3, rfl⟩
  have h := h3
  simp only [findValue, h1, Option.some_bind] at h
  exact h

/-- Witness of C10: the pointer to the value of the only stored key. -/
theorem write_through_find_witness :
    find (fun n => n) (associate (fun n => n) (construct (1 / 2)) 1 10 : MyHash Nat Nat) 1
        = some (ValuePtr.mk 1 0)
      ∧ findValue (fun n => n)
          (write (associate (fun n => n) (construct (1 / 2)) 1 10 : MyHash Nat Nat)
            (ValuePtr.mk 1 0) 30) 1 = some 30 :=
  ⟨by decide!,
    (write_through_find (fun n => n) (associate (fun n => n) (construct (1 / 2)) 1 10) 1
      (ValuePtr.mk 1 0) 30 (by decide!)).2.2.1⟩

/-! ## Invariants of the reachable states -/

/-- In a table that satisfies the invariant, two nodes with the same key are the same node. -/
theorem node_unique_of_inv (hash : K → Nat) (t : MyHash K V) (h : Inv hash t)
    (i a j b : Nat) (e1 e2 : K × V)
    (h1 : (t.m_map.getD i []).get? a = some e1) (h2 : (t.m_map.getD j []).get? b = some e2)
    (hkey : e1.1 = e2.1) : i = j ∧ a = b := by
  have hm1 : e1 ∈ t.m_map.getD i [] := List.get?_mem h1
  have hm2 : e2 ∈ t.m_map.getD j [] := List.get?_mem h2
  have hij : i = j := by
    rw [← h.placement i e1 hm1, ← h.placement j e2 hm2, hkey]
  subst hij
  refine ⟨rfl, ?_⟩
  have hnd : ((t.m_map.getD i []).map Prod.fst).Nodup :=
    ((chain_sublist_flatten t.m_map i).map Prod.fst).nodup h.nodup
  have ha : a < ((t.m_map.getD i []).map Prod.fst).length := by
    rw [List.length_map]
    exact (List.get?_eq_some.mp h1).1
  apply List.getElem?_inj ha hnd
  rw [List.getElem?_map, List.getElem?_map, ← List.get?_eq_getElem?, ← List.get?_eq_getElem?,
    h1, h2]
  simp [hkey]

theorem count_eq_sum_lengths (hash : K → Nat) (t : MyHash K V) (h : Inv hash t) :
    getNumItems t = (t.m_map.map List.length).sum := by
  simp only [getNumItems]
  rw [h.count, entries, List.length_flatten]

theorem reachable_sample : Reachable (fun n => n)
    (associate (fun n => n) (construct (1 / 2)) 1 10 : MyHash Nat Nat) :=
  Reachable.associate 1 10 (Reachable.construct (1 / 2))

/-- C11: `find(k)` on a freshly constructed table returns `nullptr`, for every hash function,
every maximum load factor and every key. -/
theorem find_on_fresh_table [DecidableEq K] (hash : K → Nat) (m : ℚ) (k : K) :
    find hash (construct m : MyHash K V) k = none
      ∧ findValue hash (construct m : MyHash K V) k = none :=
  ⟨(find_eq_none_iff hash _ k).mpr (findValue_construct hash m k), findValue_construct hash m k⟩

/-- C12: no duplicate keys. In every reachable state the keys of all nodes of the directory
are pairwise distinct: two nodes with equal keys, in the same chain or in different chains,
are the same node (same slot, same offset). -/
theorem no_duplicate_keys [DecidableEq K] (hash : K → Nat) (t : MyHash K V)
    (hreach : Reachable hash t) :
    ((entries t).map Prod.fst).Nodup
      ∧ ∀ (i a j b : Nat) (e1 e2 : K × V),
          (t.m_map.getD i []).get? a = some e1 → (t.m_map.getD j []).get? b = some e2 →
          e1.1 = e2.1 → i = j ∧ a = b :=
  ⟨hreach.inv.nodup, node_unique_of_inv hash t hreach.inv⟩

/-- Witness of C12: a table holding one key. -/
theorem no_duplicate_keys_witness :
    Reachable (fun n => n) (associate (fun n => n) (construct (1 / 2)) 1 10 : MyHash Nat Nat)
      ∧ ((entries (associate (fun n => n) (construct (1 / 2)) 1 10 :
          MyHash Nat Nat)).map Prod.fst).Nodup :=
  ⟨reachable_sample,
    (no_duplicate_keys (fun n => n) (associate (fun n => n) (construct (1 / 2)) 1 10)
      reachable_sample).1⟩

/-- C13: placement. In every reachable state, also right after a growth, every node in the
chain of slot `i` has `hash(key) % m_capacity = i` for the current capacity. -/
theorem placement_invariant [DecidableEq K] (hash : K → Nat) (t : MyHash K V)
    (hreach : Reachable hash t) :
    ∀ (i : Nat) (e : K × V), e ∈ t.m_map.getD i [] →
      hash e.1 % t.m_capacity = i ∧ getBucketNumber hash t e.1 = i :=
  fun i e he => ⟨hreach.inv.placement i e he, hreach.inv.placement i e he⟩

/-- Witness of C13: maximum load factor 1/100, the state right after the growth that the
second insertion triggers. -/
theorem placement_invariant_witness :
    Reachable (fun n => n) (associate (fun n => n)
        (associate (fun n => n) (construct (1 / 100)) 1 10 : MyHash Nat Nat) 202 20)
      ∧ (associate (fun n => n)
        (associate (fun n => n) (construct (1 / 100)) 1 10 : MyHash Nat Nat) 202 20).m_capacity
          = 200
      ∧ ((202, 20) : Nat × Nat) ∈ (associate (fun n => n)
        (associate (fun n => n) (construct (1 / 100)) 1 10 : MyHash Nat Nat) 202 20).m_map.getD
          2 []
      ∧ 202 % (associate (fun n => n)
        (associate (fun n => n) (construct (1 / 100)) 1 10 : MyHash Nat Nat) 202 20).m_capacity
          = 2 :=
  ⟨Reachable.associate 202 20 (Reachable.associate 1 10 (Reachable.construct (1 / 100))),
    by decide!, by decide!,
    ((placement_invariant (fun n => n) _
      (Reachable.associate 202 20 (Reachable.associate 1 10 (Reachable.construct (1 / 100)))))
      2 (202, 20) (by decide!)).1⟩

/-- C14: count. In every reachable state `getNumItems()` is the sum of the lengths of all
chains of the directory. -/
theorem count_invariant [DecidableEq K] (hash : K → Nat) (t : MyHash K V)
    (hreach : Reachable hash t) :
    getNumItems t = (t.m_map.map List.length).sum :=
  count_eq_sum_lengths hash t hreach.inv

/-- Witness of C14: a table holding one key. -/
theorem count_invariant_witness :
    Reachable (fun n => n) (associate (fun n => n) (construct (1 / 2)) 1 10 : MyHash Nat Nat)
      ∧ getNumItems (associate (fun n => n) (construct (1 / 2)) 1 10 : MyHash Nat Nat)
          = ((associate (fun n => n) (construct (1 / 2)) 1 10 :
              MyHash Nat Nat).m_map.map List.length).sum :=
  ⟨reachable_sample,
    count_invariant (fun n => n) (associate (fun n => n) (construct (1 / 2)) 1 10)
      reachable_sample⟩

/-! ## The rehash -/

theorem growth_state_facts (hash : K → Nat) (t : MyHash K V) (h : Inv hash t) :
    (countItem t).m_capacity * 2 / 2 = (countItem t).m_map.length
      ∧ (grow hash (countItem t)).m_capacity = 2 * t.m_capacity
      ∧ (grow hash (countItem t)).m_map.length = (grow hash (countItem t)).m_capacity := by
  have hc : (grow hash (countItem t)).m_capacity = t.m_capacity * 2 := rfl
  refine ⟨?_, by rw [hc, Nat.mul_comm], transferMap_length hash _⟩
  have hl : (countItem t).m_map.length = t.m_capacity := h.length_eq
  have hcc : (countItem t).m_capacity = t.m_capacity := rfl
  rw [hl, hcc]
  omega

theorem foldl_range_getD {α β : Type} (l : List (List α)) (f : List α → β → β) (init : β) :
    (List.range l.length).foldl (fun acc i => f (l.getD i []) acc) init
      = l.foldl (fun acc c => f c acc) init := by
  have h := List.foldl_map (fun i => l.getD i []) (fun acc c => f c acc)
    (List.range l.length) init
  rw [map_getD_range] at h
  exact h.symm

/-- Scanning the first `m_capacity / 2` old slots is rehashing every stored node, as soon as
the old directory has `m_capacity / 2` slots. -/
theorem transferMap_eq_rehashAll (hash : K → Nat) (s : MyHash K V)
    (hlen : s.m_map.length = s.m_capacity / 2) : transferMap hash s = rehashAll hash s := by
  simp only [transferMap, rehashAll]
  rw [← hlen, foldl_range_getD s.m_map (fun c acc => transferChain hash s c acc)]

theorem mem_slot_of_mem_entries (hash : K → Nat) (t : MyHash K V)
    (hplace : ∀ i e, e ∈ t.m_map.getD i [] → hash e.1 % t.m_capacity = i)
    (e : K × V) (he : e ∈ entries t) : e ∈ t.m_map.getD (hash e.1 % t.m_capacity) [] := by
  obtain ⟨i, _, hi⟩ := mem_flatten_getD _ _ he
  rw [hplace i e hi]
  exact hi

/-- C16: the rehash moves exactly the stored entries. When `associate` on a reachable table
with capacity `c` grows it, `transferMap` (which scans the old slots `0 .. (2c)/2 - 1`) gives
the same table as rehashing all stored entries; the entries of the new directory are, as a
multiset, the entries of the old one, and each of them is in the chain of slot
`hash(key) % (2c)`. -/
theorem transferMap_moves_all_entries [DecidableEq K] (hash : K → Nat) (t : MyHash K V)
    (hreach : Reachable hash t) :
    grow hash (countItem t)
        = rehashAll hash { countItem t with m_capacity := (countItem t).m_capacity * 2 }
      ∧ (↑(entries (grow hash (countItem t))) : Multiset (K × V)) = ↑(entries t)
      ∧ (∀ (i : Nat) (e : K × V), e ∈ (grow hash (countItem t)).m_map.getD i [] →
          i = hash e.1 % (2 * t.m_capacity))
      ∧ (∀ e : K × V, e ∈ entries t →
          e ∈ (grow hash (countItem t)).m_map.getD (hash e.1 % (2 * t.m_capacity)) []) := by
  have h := hreach.inv
  obtain ⟨h1, h2, _⟩ := growth_state_facts hash t h
  have hperm := grow_entries_perm hash (countItem t) h.capacity_pos h.length_eq
  have hplace : ∀ (i : Nat) (e : K × V), e ∈ (grow hash (countItem t)).m_map.getD i [] →
      hash e.1 % (grow hash (countItem t)).m_capacity = i := transferMap_placement hash _
  refine ⟨?_, Multiset.coe_eq_coe.mpr hperm, ?_, ?_⟩
  · exact transferMap_eq_rehashAll hash _ h1.symm
  · intro i e he
    rw [← h2]
    exact (hplace i e he).symm
  · intro e he
    rw [← h2]
    exact mem_slot_of_mem_entries hash _ hplace e (hperm.mem_iff.mpr he)

/-- Witness of C16: the growth that the second insertion triggers with maximum load factor
1/100; the stored node `(1, 10)` is in slot `1 % 200` of the new directory. -/
theorem transferMap_moves_all_entries_witness :
    Reachable (fun n => n) (associate (fun n => n) (construct (1 / 100)) 1 10 : MyHash Nat Nat)
      ∧ ((1, 10) : Nat × Nat)
          ∈ entries (associate (fun n => n) (construct (1 / 100)) 1 10 : MyHash Nat Nat)
      ∧ ((1, 10) : Nat × Nat)
          ∈ (grow (fun n => n) (countItem (associate (fun n => n) (construct (1 / 100)) 1 10 :
              MyHash Nat Nat))).m_map.getD
            (1 % (2 * (associate (fun n => n) (construct (1 / 100)) 1 10 :
              MyHash Nat Nat).m_capacity)) [] :=
  ⟨Reachable.associate 1 10 (Reachable.construct (1 / 100)), by decide!,
    (transferMap_moves_all_entries (fun n => n)
      (associate (fun n => n) (construct (1 / 100)) 1 10)
      (Reachable.associate 1 10 (Reachable.construct (1 / 100)))).2.2.2 (1, 10) (by decide!)⟩

/-! ## Load factor after growth -/

theorem find_construct [DecidableEq K] (hash : K → Nat) (m : ℚ) (k : K) :
    find hash (construct m : MyHash K V) k = none :=
  (find_eq_none_iff hash _ k).mpr (findValue_construct hash m k)

theorem construct_max_of_mem (m : ℚ) (hpos : 0 < m) (hle : m ≤ 2) :
    (construct m : MyHash K V).m_maxLoadFactor = m := by
  have h1 : ¬ m ≤ 0 := not_le.mpr hpos
  have h2 : ¬ m > 2 := not_lt.mpr hle
  simp only [construct, h1, h2, if_false]

/-- C17: a single doubling can be insufficient. With the maximum load factor 1/1000, which
lies in (0, 2], the first insertion into the freshly constructed (reachable) table, for any
hash function and key, doubles the capacity once, from 100 to 200, and afterwards
item count / capacity = 1/200 still exceeds the maximum. -/
theorem single_doubling_insufficient [DecidableEq K] (hash : K → Nat) (k : K) (v : V) :
    Reachable hash (construct (1 / 1000) : MyHash K V)
      ∧ (construct (1 / 1000) : MyHash K V).m_maxLoadFactor = 1 / 1000
      ∧ (0 : ℚ) < 1 / 1000 ∧ (1 : ℚ) / 1000 ≤ 2
      ∧ (associate hash (construct (1 / 1000)) k v).m_capacity
          = 2 * (construct (1 / 1000) : MyHash K V).m_capacity
      ∧ (associate hash (construct (1 / 1000)) k v).m_capacity = 200
      ∧ getNumItems (associate hash (construct (1 / 1000)) k v) = 1
      ∧ (associate hash (construct (1 / 1000)) k v).m_maxLoadFactor
          < (getNumItems (associate hash (construct (1 / 1000)) k v) : ℚ)
            / ((associate hash (construct (1 / 1000)) k v).m_capacity : ℚ) := by
  have hmax : (construct (1 / 1000) : MyHash K V).m_maxLoadFactor = 1 / 1000 :=
    construct_max_of_mem _ (by norm_num) (by norm_num)
  have hf : find hash (construct (1 / 1000) : MyHash K V) k = none := find_construct hash _ k
  have hitems : (associate hash (construct (1 / 1000)) k v).m_items = 1 := by
    rw [m_items_associate, if_pos hf]
    rfl
  have hcap : (associate hash (construct (1 / 1000)) k v).m_capacity = 200 := by
    rw [m_capacity_associate, hmax]
    have hg : (1 : ℚ) / 1000 < (((construct (1 / 1000) : MyHash K V).m_items : ℚ) + 1)
        / ((construct (1 / 1000) : MyHash K V).m_capacity : ℚ) := by
      simp only [construct]
      norm_num
    rw [if_pos ⟨hf, hg⟩]
    rfl
  refine ⟨Reachable.construct _, hmax, by norm_num, by norm_num, ?_, hcap, hitems, ?_⟩
  · rw [hcap]
    rfl
  · simp only [getNumItems]
    rw [m_maxLoadFactor_associate, hmax, hitems, hcap]
    norm_num

/-! ## The lookup frame -/

theorem roundTiesToEven_ge_floor (q : ℚ) : ⌊q⌋ ≤ roundTiesToEven q := by
  simp only [roundTiesToEven]
  split_ifs <;> omega

theorem roundTiesToEven_le_floor_succ (q : ℚ) : roundTiesToEven q ≤ ⌊q⌋ + 1 := by
  simp only [roundTiesToEven]
  split_ifs <;> omega

theorem roundTiesToEven_intCast (k : ℤ) : roundTiesToEven (k : ℚ) = k := by
  simp [roundTiesToEven]

theorem roundTiesToEven_mono {q r : ℚ} (h : q ≤ r) : roundTiesToEven q ≤ roundTiesToEven r := by
  have hf : ⌊q⌋ ≤ ⌊r⌋ := Int.floor_mono h
  rcases lt_or_eq_of_le hf with hlt | heq
  · exact le_trans (roundTiesToEven_le_floor_succ q)
      (le_trans (by omega) (roundTiesToEven_ge_floor r))
  · simp only [roundTiesToEven, ← heq]
    split_ifs <;> first | omega | (exfalso; linarith)

theorem roundToDouble_zero : roundToDouble 0 = 0 := by
  simp [roundToDouble]

theorem roundToDouble_bounds {x : ℚ} (hx : 0 < x) :
    (2 : ℚ) ^ (Int.log 2 x) ≤ roundToDouble x
      ∧ roundToDouble x ≤ (2 : ℚ) ^ (Int.log 2 x + 1) := by
  have h1 : (2 : ℚ) ^ (Int.log 2 x) ≤ x := by
    simpa using Int.zpow_log_le_self (by norm_num : 1 < 2) hx
  have h2 : x < (2 : ℚ) ^ (Int.log 2 x + 1) := by
    simpa using Int.lt_zpow_succ_log_self (by norm_num : 1 < 2) x
  have hs : (0 : ℚ) < 2 ^ (52 - Int.log 2 x) := zpow_pos (by norm_num) _
  have hs' : (0 : ℚ) < 2 ^ (Int.log 2 x - 52) := zpow_pos (by norm_num) _
  have hlo : ((2 ^ 52 : ℤ) : ℚ) ≤ x * 2 ^ (52 - Int.log 2 x) := by
    have : (2 : ℚ) ^ (Int.log 2 x) * 2 ^ (52 - Int.log 2 x) = ((2 ^ 52 : ℤ) : ℚ) := by
      have he : Int.log 2 x + (52 - Int.log 2 x) = 52 := by ring
      rw [← zpow_add₀ (by norm_num : (2 : ℚ) ≠ 0), he]
      norm_num
    rw [← this]
    exact mul_le_mul_of_nonneg_right h1 hs.le
  have hhi : x * 2 ^ (52 - Int.log 2 x) ≤ ((2 ^ 53 : ℤ) : ℚ) := by
    have : (2 : ℚ) ^ (Int.log 2 x + 1) * 2 ^ (52 - Int.log 2 x) = ((2 ^ 53 : ℤ) : ℚ) := by
      have he : Int.log 2 x + 1 + (52 - Int.log 2 x) = 53 := by ring
      rw [← zpow_add₀ (by norm_num : (2 : ℚ) ≠ 0), he]
      norm_num
    rw [← this]
    exact mul_le_mul_of_nonneg_right h2.le hs.le
  have hlo' := roundTiesToEven_mono hlo
  have hhi' := roundTiesToEven_mono hhi
  rw [roundTiesToEven_intCast] at hlo' hhi'
  have hlo'' : ((2 ^ 52 : ℤ) : ℚ) ≤ (roundTiesToEven (x * 2 ^ (52 - Int.log 2 x)) : ℚ) := by
    exact_mod_cast hlo'
  have hhi'' : (roundTiesToEven (x * 2 ^ (52 - Int.log 2 x)) : ℚ) ≤ ((2 ^ 53 : ℤ) : ℚ) := by
    exact_mod_cast hhi'
  simp only [roundToDouble, hx.ne', if_false, abs_of_pos hx]
  constructor
  · have : (2 : ℚ) ^ (Int.log 2 x) = ((2 ^ 52 : ℤ) : ℚ) * 2 ^ (Int.log 2 x - 52) := by
      have h52 : ((2 ^ 52 : ℤ) : ℚ) = (2 : ℚ) ^ (52 : ℤ) := by norm_num
      rw [h52, ← zpow_add₀ (by norm_num : (2 : ℚ) ≠ 0)]
      congr 1
      ring
    rw [this]
    exact mul_le_mul_of_nonneg_right hlo'' hs'.le
  · have : (2 : ℚ) ^ (Int.log 2 x + 1) = ((2 ^ 53 : ℤ) : ℚ) * 2 ^ (Int.log 2 x - 52) := by
      have h53 : ((2 ^ 53 : ℤ) : ℚ) = (2 : ℚ) ^ (53 : ℤ) := by norm_num
      rw [h53, ← zpow_add₀ (by norm_num : (2 : ℚ) ≠ 0)]
      congr 1
      ring
    rw [this]
    exact mul_le_mul_of_nonneg_right hhi'' hs'.le

theorem roundToDouble_nonneg {x : ℚ} (hx : 0 ≤ x) : 0 ≤ roundToDouble x := by
  rcases eq_or_lt_of_le hx with h | h
  · rw [← h, roundToDouble_zero]
  · exact le_trans (zpow_pos (by norm_num) _).le (roundToDouble_bounds h).1

/-- Rounding to double preserves the order of non-negative rationals. -/
theorem roundToDouble_mono {x y : ℚ} (hx : 0 ≤ x) (hxy : x ≤ y) :
    roundToDouble x ≤ roundToDouble y := by
  rcases eq_or_lt_of_le hx with h | h
  · rw [← h, roundToDouble_zero]
    exact roundToDouble_nonneg (le_trans hx hxy)
  · have hy : 0 < y := lt_of_lt_of_le h hxy
    have hlog : Int.log 2 x ≤ Int.log 2 y := Int.log_mono_right h hxy
    rcases lt_or_eq_of_le hlog with hlt | heq
    · refine le_trans (roundToDouble_bounds h).2 (le_trans ?_ (roundToDouble_bounds hy).1)
      exact zpow_le_zpow_right₀ (by norm_num) (by omega)
    · simp only [roundToDouble, h.ne', hy.ne', if_false, abs_of_pos h, abs_of_pos hy, ← heq]
      apply mul_le_mul_of_nonneg_right _ (zpow_pos (by norm_num) _).le
      have : roundTiesToEven (x * 2 ^ (52 - Int.log 2 x))
          ≤ roundTiesToEven (y * 2 ^ (52 - Int.log 2 x)) :=
        roundTiesToEven_mono (mul_le_mul_of_nonneg_right hxy (zpow_pos (by norm_num) _).le)
      exact_mod_cast this

/-- Powers of two are doubles. -/
theorem roundToDouble_zpow (k : ℤ) : roundToDouble ((2 : ℚ) ^ k) = 2 ^ k := by
  have hpos : (0 : ℚ) < 2 ^ k := zpow_pos (by norm_num) _
  have hlog : Int.log 2 ((2 : ℚ) ^ k) = k := by
    have h : Int.log 2 (((2 : ℕ) : ℚ) ^ k) = k := Int.log_zpow (by norm_num) k
    simpa using h
  simp only [roundToDouble, hpos.ne', if_false, abs_of_pos hpos, hlog]
  have hm : (2 : ℚ) ^ k * 2 ^ (52 - k) = ((2 ^ 52 : ℤ) : ℚ) := by
    have he : k + (52 - k) = 52 := by ring
    rw [← zpow_add₀ (by norm_num : (2 : ℚ) ≠ 0), he]
    norm_num
  rw [hm, roundTiesToEven_intCast]
  have h52 : ((2 ^ 52 : ℤ) : ℚ) = (2 : ℚ) ^ (52 : ℤ) := by norm_num
  rw [h52, ← zpow_add₀ (by norm_num : (2 : ℚ) ≠ 0)]
  congr 1
  ring

/-! ## One call of `associate` in machine arithmetic -/

theorem associateMachine_of_find_some [DecidableEq K] (hash : K → Nat) (t : MyHash K V)
    (key : K) (value : V) (p : ValuePtr) (h : find hash t key = some p) :
    associateMachine hash t key value = some (write t p value) := by
  simp only [associateMachine, h]

theorem associateMachine_of_find_none [DecidableEq K] (hash : K → Nat) (t : MyHash K V)
    (key : K) (value : V) (h : find hash t key = none) :
    associateMachine hash t key value
      = if INT_MAX < t.m_items + 1 then none
        else if (countItemMachine t).m_currLoadFactor > (countItemMachine t).m_maxLoadFactor
          then (if INT_MAX < (countItemMachine t).m_capacity * 2 then none
            else some (linkFront hash (grow hash (countItemMachine t)) key value))
          else some (linkFront hash (countItemMachine t) key value) := by
  simp only [associateMachine, h]
  rfl

theorem countItemMachine_loadFactor (t : MyHash K V) :
    (countItemMachine t).m_currLoadFactor
      = roundToDouble (((t.m_items : ℚ) + 1) / (t.m_capacity : ℚ)) := by
  simp [countItemMachine, getNumItems]

/-- Linking a new key in front of its chain, in a table `u` that holds the nodes of `t`. -/
theorem link_new_key [DecidableEq K] (hash : K → Nat) (t u : MyHash K V) (key : K) (value : V)
    (h : Inv hash t) (hf : find hash t key = none)
    (h1 : 0 < u.m_capacity) (h2 : u.m_map.length = u.m_capacity)
    (h3 : ∀ i e, e ∈ u.m_map.getD i [] → hash e.1 % u.m_capacity = i)
    (h4 : (entries u).Perm (entries t)) (h5 : u.m_items = t.m_items + 1)
    (h6 : u.m_maxLoadFactor = t.m_maxLoadFactor) :
    Inv hash (linkFront hash u key value)
      ∧ ∀ k, findValue hash (linkFront hash u key value) k
          = if k = key then some value else findValue hash t k := by
  have hnew : key ∉ (entries t).map Prod.fst :=
    (findValue_eq_none_iff_entries hash t h key).mp ((find_eq_none_iff hash t key).mp hf)
  have hinv : Inv hash (linkFront hash u key value) := by
    apply Inv_linkFront hash u key value h1 h2 h3
    · exact ((h4.map Prod.fst).nodup_iff).mpr h.nodup
    · rw [h5, h4.length_eq, h.count]
    · rw [h6]; exact h.max_pos
    · rw [h6]; exact h.max_le
    · intro hmem
      exact hnew ((h4.map Prod.fst).mem_iff.mp hmem)
  have hperm : (entries (linkFront hash u key value)).Perm ((key, value) :: entries t) :=
    (entries_linkFront_perm hash u key value h1 h2).trans (h4.cons _)
  refine ⟨hinv, ?_⟩
  intro k
  by_cases hk : k = key
  · subst hk
    rw [if_pos rfl, findValue_eq_some_iff hash _ hinv]
    exact hperm.mem_iff.mpr (List.mem_cons_self _ _)
  · rw [if_neg hk]
    apply findValue_congr_of_mem hash _ _ hinv h
    intro v
    rw [hperm.mem_iff, List.mem_cons]
    constructor
    · rintro (heq | hmem)
      · exact absurd (congrArg Prod.fst heq) hk
      · exact hmem
    · exact Or.inr

theorem countItemMachine_facts (hash : K → Nat) (t : MyHash K V) (h : Inv hash t) :
    (0 < (countItemMachine t).m_capacity
        ∧ (countItemMachine t).m_map.length = (countItemMachine t).m_capacity
        ∧ (∀ i e, e ∈ (countItemMachine t).m_map.getD i [] →
            hash e.1 % (countItemMachine t).m_capacity = i)
        ∧ (entries (countItemMachine t)).Perm (entries t))
      ∧ (0 < (grow hash (countItemMachine t)).m_capacity
        ∧ (grow hash (countItemMachine t)).m_map.length
            = (grow hash (countItemMachine t)).m_capacity
        ∧ (∀ i e, e ∈ (grow hash (countItemMachine t)).m_map.getD i [] →
            hash e.1 % (grow hash (countItemMachine t)).m_capacity = i)
        ∧ (entries (grow hash (countItemMachine t))).Perm (entries t)) := by
  refine ⟨⟨h.capacity_pos, h.length_eq, h.placement, List.Perm.refl _⟩, ?_, ?_, ?_, ?_⟩
  · have hc : (grow hash (countItemMachine t)).m_capacity = t.m_capacity * 2 := rfl
    rw [hc]
    exact Nat.mul_pos h.capacity_pos (by decide)
  · exact transferMap_length hash _
  · exact transferMap_placement hash _
  · exact grow_entries_perm hash (countItemMachine t) h.capacity_pos h.length_eq

/-- Everything a successful machine call of `associate` does to the table. -/
theorem associateMachine_spec [DecidableEq K] (hash : K → Nat) (t s : MyHash K V) (key : K)
    (value : V) (h : Inv hash t) (hs : associateMachine hash t key value = some s) :
    Inv hash s
      ∧ (∀ k, findValue hash s k = if k = key then some value else findValue hash t k)
      ∧ s.m_maxLoadFactor = t.m_maxLoadFactor
      ∧ s.m_items = (if find hash t key = none then t.m_items + 1 else t.m_items)
      ∧ s.m_capacity = (if find hash t key = none
            ∧ t.m_maxLoadFactor < roundToDouble (((t.m_items : ℚ) + 1) / (t.m_capacity : ℚ))
          then t.m_capacity * 2 else t.m_capacity)
      ∧ (t.m_items ≤ INT_MAX → s.m_items ≤ INT_MAX)
      ∧ (t.m_capacity ≤ INT_MAX → s.m_capacity ≤ INT_MAX) := by
  cases hf : find hash t key with
  | some p =>
    rw [associateMachine_of_find_some hash t key value p hf] at hs
    have hs' : s = write t p value := (Option.some.inj hs).symm
    subst hs'
    refine ⟨Inv_write hash t p value h, findValue_write hash t key p value hf, rfl, ?_, ?_,
      fun hc => hc, fun hc => hc⟩
    · simp [write]
    · simp [write]
  | none =>
    rw [associateMachine_of_find_none hash t key value hf] at hs
    obtain ⟨⟨a1, a2, a3, a4⟩, ⟨b1, b2, b3, b4⟩⟩ := countItemMachine_facts hash t h
    have hlf := countItemMachine_loadFactor t
    have hmax : (countItemMachine t).m_maxLoadFactor = t.m_maxLoadFactor := rfl
    by_cases ho : INT_MAX < t.m_items + 1
    · rw [if_pos ho] at hs
      exact Option.noConfusion hs
    · rw [if_neg ho] at hs
      by_cases hg : (countItemMachine t).m_currLoadFactor > (countItemMachine t).m_maxLoadFactor
      · rw [if_pos hg] at hs
        by_cases hc : INT_MAX < (countItemMachine t).m_capacity * 2
        · rw [if_pos hc] at hs
          exact Option.noConfusion hs
        · rw [if_neg hc] at hs
          have hs' : s = linkFront hash (grow hash (countItemMachine t)) key value :=
            (Option.some.inj hs).symm
          subst hs'
          obtain ⟨i1, i2⟩ := link_new_key hash t (grow hash (countItemMachine t)) key value h hf
            b1 b2 b3 b4 rfl rfl
          have hg' : t.m_maxLoadFactor
              < roundToDouble (((t.m_items : ℚ) + 1) / (t.m_capacity : ℚ)) := by
            rw [← hlf, ← hmax]
            exact hg
          refine ⟨i1, i2, rfl, ?_, ?_, fun _ => ?_, fun _ => ?_⟩
          · rw [if_pos rfl]; rfl
          · rw [if_pos ⟨rfl, hg'⟩]; rfl
          · exact not_lt.mp ho
          · exact not_lt.mp hc
      · rw [if_neg hg] at hs
        have hs' : s = linkFront hash (countItemMachine t) key value :=
          (Option.some.inj hs).symm
        subst hs'
        obtain ⟨i1, i2⟩ := link_new_key hash t (countItemMachine t) key value h hf
          a1 a2 a3 a4 rfl rfl
        have hg' : ¬ t.m_maxLoadFactor
            < roundToDouble (((t.m_items : ℚ) + 1) / (t.m_capacity : ℚ)) := by
          rw [← hlf, ← hmax]
          exact hg
        refine ⟨i1, i2, rfl, ?_, ?_, fun _ => ?_, fun hc => hc⟩
        · rw [if_pos rfl]; rfl
        · rw [if_neg (fun hh => hg' hh.2)]; rfl
        · exact not_lt.mp ho

/-- A machine call of `associate` succeeds unless an `int` overflows. -/
theorem associateMachine_isSome [DecidableEq K] (hash : K → Nat) (t : MyHash K V) (key : K)
    (value : V) (hitems : t.m_items + 1 ≤ INT_MAX) (hcap : t.m_capacity * 2 ≤ INT_MAX) :
    ∃ s, associateMachine hash t key value = some s := by
  cases hf : find hash t key with
  | some p => exact ⟨_, associateMachine_of_find_some hash t key value p hf⟩
  | none =>
    rw [associateMachine_of_find_none hash t key value hf, if_neg (not_lt.mpr hitems)]
    have hc : ¬ INT_MAX < (countItemMachine t).m_capacity * 2 := not_lt.mpr hcap
    by_cases hg : (countItemMachine t).m_currLoadFactor > (countItemMachine t).m_maxLoadFactor
    · rw [if_pos hg, if_neg hc]
      exact ⟨_, rfl⟩
    · rw [if_neg hg]
      exact ⟨_, rfl⟩

/-- A machine call of `associate` that has to double a capacity above `INT_MAX / 2` fails. -/
theorem associateMachine_overflow [DecidableEq K] (hash : K → Nat) (t : MyHash K V) (key : K)
    (value : V) (hf : find hash t key = none)
    (hg : t.m_maxLoadFactor < roundToDouble (((t.m_items : ℚ) + 1) / (t.m_capacity : ℚ)))
    (hcap : INT_MAX < t.m_capacity * 2) : associateMachine hash t key value = none := by
  rw [associateMachine_of_find_none hash t key value hf]
  by_cases ho : INT_MAX < t.m_items + 1
  · rw [if_pos ho]
  · have hg' : (countItemMachine t).m_currLoadFactor > (countItemMachine t).m_maxLoadFactor := by
      rw [countItemMachine_loadFactor]
      exact hg
    have hc : INT_MAX < (countItemMachine t).m_capacity * 2 := hcap
    rw [if_neg ho, if_pos hg', if_pos hc]

/-! ## Machine runs -/

theorem ReachableMachine.invariant [DecidableEq K] {hash : K → Nat} {t : MyHash K V}
    (h : ReachableMachine hash t) : Inv hash t := by
  induction h with
  | construct m => exact Inv_construct hash m
  | associate key value _ hs ih => exact (associateMachine_spec hash _ _ key value ih hs).1
  | reset _ ih => exact Inv_reset hash _ ih

theorem ReachableMachine_run [DecidableEq K] (hash : K → Nat) (ops : List (Op K V)) :
    ∀ t s : MyHash K V, ReachableMachine hash t → runMachine hash t ops = some s →
      ReachableMachine hash s := by
  induction ops with
  | nil =>
    intro t s h hrun
    simp only [runMachine, Option.some.injEq] at hrun
    rw [← hrun]
    exact h
  | cons op rest ih =>
    intro t s h hrun
    simp only [runMachine] at hrun
    cases hstep : stepMachine hash t op with
    | none =>
      rw [hstep] at hrun
      exact Option.noConfusion hrun
    | some u =>
      rw [hstep] at hrun
      apply ih u s _ hrun
      cases op with
      | associate key value => exact ReachableMachine.associate key value h hstep
      | reset =>
        simp only [stepMachine, Option.some.injEq] at hstep
        rw [← hstep]
        exact ReachableMachine.reset h

theorem runMachine_append [DecidableEq K] (hash : K → Nat) (xs ys : List (Op K V)) :
    ∀ t : MyHash K V, runMachine hash t (xs ++ ys)
      = (runMachine hash t xs).bind (fun s => runMachine hash s ys) := by
  induction xs with
  | nil => intro t; rfl
  | cons op rest ih =>
    intro t
    simp only [List.cons_append, runMachine]
    cases stepMachine hash t op with
    | none => rfl
    | some u => exact ih u

theorem ReachableMachine.bounds [DecidableEq K] {hash : K → Nat} {t : MyHash K V}
    (h : ReachableMachine hash t) :
    t.m_items ≤ INT_MAX ∧ t.m_capacity ≤ INT_MAX ∧ 100 ≤ t.m_capacity := by
  induction h with
  | construct m =>
    exact ⟨Nat.zero_le _, (by decide : 100 ≤ INT_MAX), le_of_eq rfl⟩
  | @associate t s key value hr hs ih =>
    obtain ⟨_, _, _, _, h5, h6, h7⟩ := associateMachine_spec hash t s key value hr.invariant hs
    refine ⟨h6 ih.1, h7 ih.2.1, ?_⟩
    rw [h5]
    split_ifs <;> omega
  | reset _ _ => exact ⟨Nat.zero_le _, (by decide : 100 ≤ INT_MAX), le_of_eq rfl⟩

theorem m_maxLoadFactor_runMachine [DecidableEq K] (hash : K → Nat) (ops : List (Op K V)) :
    ∀ t s : MyHash K V, Inv hash t → runMachine hash t ops = some s →
      s.m_maxLoadFactor = t.m_maxLoadFactor := by
  induction ops with
  | nil =>
    intro t s _ hrun
    simp only [runMachine, Option.some.injEq] at hrun
    rw [← hrun]
  | cons op rest ih =>
    intro t s h hrun
    simp only [runMachine] at hrun
    cases hstep : stepMachine hash t op with
    | none =>
      rw [hstep] at hrun
      exact Option.noConfusion hrun
    | some u =>
      rw [hstep] at hrun
      cases op with
      | associate key value =>
        obtain ⟨h1, _, h3, _⟩ := associateMachine_spec hash t u key value h hstep
        rw [ih u s h1 hrun, h3]
      | reset =>
        simp only [stepMachine, Option.some.injEq] at hstep
        rw [ih u s (hstep ▸ Inv_reset hash t h) hrun, ← hstep]
        rfl

theorem roundToDouble_two_hundredth : roundToDouble (1 / 200) ≤ 1 / 100 := by
  decide!

/-- With a maximum load factor of at least 1/100, the quotient item count / capacity, rounded
to double, never exceeds the maximum in a state reached in machine arithmetic. -/
theorem rounded_density_le_max [DecidableEq K] {hash : K → Nat} {t : MyHash K V}
    (h : ReachableMachine hash t) :
    1 / 100 ≤ t.m_maxLoadFactor →
      roundToDouble ((t.m_items : ℚ) / (t.m_capacity : ℚ)) ≤ t.m_maxLoadFactor := by
  induction h with
  | construct m =>
    intro _
    have hz : ((construct m : MyHash K V).m_items : ℚ) = 0 := by simp [construct]
    rw [hz, zero_div, roundToDouble_zero]
    exact le_of_lt (Inv_construct hash m).max_pos
  | @reset s hr ih =>
    intro _
    have hz : ((reset s).m_items : ℚ) = 0 := by simp [reset]
    rw [hz, zero_div, roundToDouble_zero]
    exact le_of_lt hr.invariant.max_pos
  | @associate t s key value hr hs ih =>
    intro hM
    obtain ⟨_, _, h3, h4, h5, _, _⟩ := associateMachine_spec hash t s key value hr.invariant hs
    rw [h3] at hM ⊢
    have hb := ih hM
    have hcap : 100 ≤ t.m_capacity := hr.bounds.2.2
    have hcq : (100 : ℚ) ≤ (t.m_capacity : ℚ) := by exact_mod_cast hcap
    have hcpos : (0 : ℚ) < (t.m_capacity : ℚ) := by linarith
    have hnq : (0 : ℚ) ≤ (t.m_items : ℚ) := Nat.cast_nonneg _
    by_cases hf : find hash t key = none
    · rw [if_pos hf] at h4
      by_cases hg : t.m_maxLoadFactor
          < roundToDouble (((t.m_items : ℚ) + 1) / (t.m_capacity : ℚ))
      · rw [if_pos ⟨hf, hg⟩] at h5
        rw [h4, h5]
        push_cast
        have hpos2 : (0 : ℚ) < (t.m_capacity : ℚ) * 2 := by linarith
        have hx0 : (0 : ℚ) ≤ ((t.m_items : ℚ) + 1) / ((t.m_capacity : ℚ) * 2) :=
          div_nonneg (by linarith) hpos2.le
        rcases Nat.eq_zero_or_pos t.m_items with hz | hp
        · have hle : ((t.m_items : ℚ) + 1) / ((t.m_capacity : ℚ) * 2) ≤ 1 / 200 := by
            rw [hz, div_le_div_iff₀ hpos2 (by norm_num)]
            push_cast
            linarith
          exact le_trans (roundToDouble_mono hx0 hle)
            (le_trans roundToDouble_two_hundredth hM)
        · have hp' : (1 : ℚ) ≤ (t.m_items : ℚ) := by exact_mod_cast hp
          have hle : ((t.m_items : ℚ) + 1) / ((t.m_capacity : ℚ) * 2)
              ≤ (t.m_items : ℚ) / (t.m_capacity : ℚ) := by
            rw [div_le_div_iff₀ hpos2 hcpos]
            nlinarith
          exact le_trans (roundToDouble_mono hx0 hle) hb
      · rw [if_neg (fun hh => hg hh.2)] at h5
        rw [h4, h5]
        push_cast
        exact not_lt.mp hg
    · rw [if_neg hf] at h4
      rw [if_neg (fun hh => hf hh.1)] at h5
      rw [h4, h5]
      exact hb

theorem tiny_lt_round (n c : Nat) (hc : 0 < c) (hle : c ≤ INT_MAX) :
    (1 : ℚ) / 2 ^ 40 < roundToDouble (((n : ℚ) + 1) / (c : ℚ)) := by
  have hcq : (0 : ℚ) < (c : ℚ) := by exact_mod_cast hc
  have hcle : (c : ℚ) ≤ 2 ^ 31 := by
    have : c ≤ 2 ^ 31 := le_trans hle (by decide)
    exact_mod_cast this
  have hn : (0 : ℚ) ≤ (n : ℚ) := Nat.cast_nonneg _
  have hx : (1 : ℚ) / 2 ^ 31 ≤ ((n : ℚ) + 1) / (c : ℚ) := by
    rw [div_le_div_iff₀ (by norm_num) hcq]
    nlinarith
  have hr : roundToDouble ((1 : ℚ) / 2 ^ 31) = 1 / 2 ^ 31 := by
    have h := roundToDouble_zpow (-31)
    have he : (2 : ℚ) ^ (-31 : ℤ) = 1 / 2 ^ 31 := by norm_num
    rw [he] at h
    exact h
  have hm := roundToDouble_mono (by norm_num : (0 : ℚ) ≤ 1 / 2 ^ 31) hx
  rw [hr] at hm
  exact lt_of_lt_of_le (by norm_num) hm

theorem runMachine_snoc [DecidableEq K] (hash : K → Nat) (t : MyHash K V)
    (ops : List (Op K V)) (key : K) (value : V) :
    runMachine hash t (ops ++ [Op.associate key value])
      = (runMachine hash t ops).bind (fun s => associateMachine hash s key value) := by
  rw [runMachine_append]
  congr 1
  funext s
  simp only [runMachine, stepMachine]
  cases associateMachine hash s key value <;> rfl

/-- With the maximum load factor `2 ^ (-40)` every insertion of a new key doubles the
capacity, as long as the doubled capacity fits in an `int`. -/
theorem tiny_max_run [DecidableEq K] (hash : K → Nat) (calls : List (K × V)) :
    (calls.map Prod.fst).Nodup → calls.length ≤ 24 →
      ∃ t, runMachine hash (construct (1 / 2 ^ 40))
            (calls.map (fun kv => Op.associate kv.1 kv.2)) = some t
        ∧ t.m_capacity = 100 * 2 ^ calls.length ∧ t.m_items = calls.length
        ∧ t.m_maxLoadFactor = 1 / 2 ^ 40 ∧ ReachableMachine hash t
        ∧ ∀ k, k ∉ calls.map Prod.fst → findValue hash t k = none := by
  induction calls using List.reverseRecOn with
  | nil =>
    intro _ _
    refine ⟨construct (1 / 2 ^ 40), rfl, rfl, rfl, ?_, ReachableMachine.construct _, ?_⟩
    · exact construct_max_of_mem _ (by norm_num) (by norm_num)
    · intro k _
      exact findValue_construct hash _ k
  | append_singleton xs kv ih =>
    intro hnd hlen
    simp only [List.map_append, List.map_cons, List.map_nil] at hnd
    simp only [List.length_append, List.length_singleton] at hlen
    have hxs : (xs.map Prod.fst).Nodup := (List.nodup_append.mp hnd).1
    have hnew : kv.1 ∉ xs.map Prod.fst := by
      intro hmem
      exact (List.nodup_append.mp hnd).2.2 hmem (List.mem_singleton_self _)
    obtain ⟨t, hrun, hcap, hitems, hmax, hreach, habs⟩ := ih hxs (by omega)
    have hpow : 2 ^ xs.length ≤ 2 ^ 23 := Nat.pow_le_pow_right (by decide) (by omega)
    have hpow' : 0 < 2 ^ xs.length := by positivity
    have hcap2 : t.m_capacity * 2 ≤ INT_MAX := by
      rw [hcap]
      have : 100 * 2 ^ 23 * 2 ≤ INT_MAX := by decide
      omega
    have hit : t.m_items + 1 ≤ INT_MAX := by
      rw [hitems]
      have : 24 ≤ INT_MAX := by decide
      omega
    obtain ⟨s, hs⟩ := associateMachine_isSome hash t kv.1 kv.2 hit hcap2
    obtain ⟨_, h2, h3, h4, h5, _, _⟩ := associateMachine_spec hash t s kv.1 kv.2 hreach.invariant hs
    have hf : find hash t kv.1 = none := (find_eq_none_iff hash t kv.1).mpr (habs kv.1 hnew)
    have hg : t.m_maxLoadFactor
        < roundToDouble (((t.m_items : ℚ) + 1) / (t.m_capacity : ℚ)) := by
      rw [hmax]
      exact tiny_lt_round t.m_items t.m_capacity hreach.invariant.capacity_pos (by omega)
    rw [if_pos hf] at h4
    rw [if_pos ⟨hf, hg⟩] at h5
    refine ⟨s, ?_, ?_, ?_, by rw [h3, hmax], ReachableMachine.associate kv.1 kv.2 hreach hs, ?_⟩
    · rw [List.map_append, List.map_cons, List.map_nil, runMachine_snoc, hrun]
      exact hs
    · rw [h5, hcap, List.length_append, List.length_singleton, Nat.pow_succ]
      ring
    · rw [h4, hitems, List.length_append, List.length_singleton]
    · intro k hk
      simp only [List.map_append, List.map_cons, List.map_nil, List.mem_append,
        List.mem_singleton, not_or] at hk
      rw [h2 k, if_neg hk.2]
      exact habs k hk.1

/-! ## The growth threshold and the range of the capacity, in machine arithmetic -/

theorem tieTable_run_29 :
    runMachine (fun k => k) (construct doubleThreeTenths) (insertOps 29) = some (tieTable 29) := by
  decide!

theorem tieTable_run_30 :
    runMachine (fun k => k) (construct doubleThreeTenths) (insertOps 30) = some (tieTable 30) := by
  decide!

theorem tieTable_reachable_29 : ReachableMachine (fun k => k) (tieTable 29) :=
  ReachableMachine_run _ _ _ _ (ReachableMachine.construct doubleThreeTenths) tieTable_run_29

/-- C8, the claim as stated fails on the code: with the maximum load factor 0.3 (the double
`doubleThreeTenths`, below 3/10) and 29 keys stored in 100 slots, the key 29 is absent and
(29 + 1) / 100 exceeds the maximum, yet `associate(29, 29)` leaves the capacity at 100,
because the quotient of line 128 rounds to the maximum itself. -/
theorem growth_trigger_counterexample :
    roundToDouble (3 / 10) = doubleThreeTenths
      ∧ runMachine (fun k => k) (construct doubleThreeTenths) (insertOps 29)
          = some (tieTable 29)
      ∧ (tieTable 29).m_maxLoadFactor = doubleThreeTenths
      ∧ findValue (fun k => k) (tieTable 29) 29 = none
      ∧ (tieTable 29).m_maxLoadFactor
          < ((getNumItems (tieTable 29) : ℚ) + 1) / ((tieTable 29).m_capacity : ℚ)
      ∧ associateMachine (fun k => k) (tieTable 29) 29 29 = some (tieTable 30)
      ∧ (tieTable 30).m_capacity = (tieTable 29).m_capacity
      ∧ (tieTable 30).m_capacity = 100 := by
  decide!

/-- C8, amended: growth trigger with the quotient as the code computes it. On a table
reached in machine arithmetic, with capacity `c`, `n` items and maximum load factor `M`, such
that `n + 1` and `2 * c` fit in an `int`, `associate(k, v)` returns, and it changes the
capacity exactly when `k` is absent and `(n + 1) / c` rounded to double exceeds `M`; it then
makes it `2 * c`, and otherwise leaves it `c`. A call on a key that is present never grows
the table. -/
theorem growth_trigger_rounded [DecidableEq K] (hash : K → Nat) (t : MyHash K V) (k : K)
    (v : V) (hreach : ReachableMachine hash t) (hitems : t.m_items + 1 ≤ INT_MAX)
    (hcap : t.m_capacity * 2 ≤ INT_MAX) :
    ∃ s, associateMachine hash t k v = some s
      ∧ (s.m_capacity ≠ t.m_capacity
          ↔ (findValue hash t k = none
              ∧ t.m_maxLoadFactor
                < roundToDouble (((getNumItems t : ℚ) + 1) / (t.m_capacity : ℚ))))
      ∧ ((findValue hash t k = none
            ∧ t.m_maxLoadFactor
              < roundToDouble (((getNumItems t : ℚ) + 1) / (t.m_capacity : ℚ)))
          → s.m_capacity = 2 * t.m_capacity)
      ∧ (¬ (findValue hash t k = none
            ∧ t.m_maxLoadFactor
              < roundToDouble (((getNumItems t : ℚ) + 1) / (t.m_capacity : ℚ)))
          → s.m_capacity = t.m_capacity)
      ∧ (findValue hash t k ≠ none → s.m_capacity = t.m_capacity) := by
  obtain ⟨s, hs⟩ := associateMachine_isSome hash t k v hitems hcap
  obtain ⟨_, _, _, _, h5, _, _⟩ := associateMachine_spec hash t s k v hreach.invariant hs
  have hpos := hreach.invariant.capacity_pos
  have hiff := find_eq_none_iff hash t k
  refine ⟨s, hs, ?_⟩
  simp only [getNumItems]
  by_cases hc : findValue hash t k = none
      ∧ t.m_maxLoadFactor < roundToDouble (((t.m_items : ℚ) + 1) / (t.m_capacity : ℚ))
  · rw [if_pos ⟨hiff.mpr hc.1, hc.2⟩] at h5
    refine ⟨⟨fun _ => hc, fun _ => by omega⟩, fun _ => by omega, fun h => absurd hc h,
      fun h => absurd hc.1 h⟩
  · rw [if_neg (fun h => hc ⟨hiff.mp h.1, h.2⟩)] at h5
    refine ⟨⟨fun h => absurd h5 h, fun h => absurd h hc⟩, fun h => absurd h hc,
      fun _ => h5, fun _ => h5⟩

/-- Witness of C8, amended: the table of 29 keys with the maximum load factor 0.3 and the
absent key 29. -/
theorem growth_trigger_rounded_witness :
    ReachableMachine (fun k => k) (tieTable 29)
      ∧ (tieTable 29).m_items + 1 ≤ INT_MAX
      ∧ (tieTable 29).m_capacity * 2 ≤ INT_MAX
      ∧ ∃ s, associateMachine (fun k => k) (tieTable 29) 29 29 = some s
        ∧ (s.m_capacity ≠ (tieTable 29).m_capacity
            ↔ (findValue (fun k => k) (tieTable 29) 29 = none
                ∧ (tieTable 29).m_maxLoadFactor
                  < roundToDouble (((getNumItems (tieTable 29) : ℚ) + 1)
                      / ((tieTable 29).m_capacity : ℚ)))) :=
  ⟨tieTable_reachable_29, by decide!, by decide!,
    (growth_trigger_rounded (fun k => k) (tieTable 29) 29 29 tieTable_reachable_29
      (by decide!) (by decide!)).imp (fun _ h => ⟨h.1, h.2.1⟩)⟩

/-- C15, evaluated on the code: with the maximum load factor `2 ^ (-40)`, a double, each of
the keys `0 .. 23` doubles the capacity, which is 1677721600 after 24 insertions; the 25th
insertion has to double it again, `2 * 1677721600` exceeds `INT_MAX`, and `m_capacity *= 2`
overflows, so the call has no defined result and no directory of `m_capacity` slots. -/
theorem capacity_doubling_overflows :
    roundToDouble (1 / 2 ^ 40) = 1 / 2 ^ 40
      ∧ (runMachine (fun k => k) (construct (1 / 2 ^ 40)) (insertOps 24)).map
          (fun t => (t.m_capacity, t.m_map.length, getNumItems t))
        = some (1677721600, 1677721600, 24)
      ∧ INT_MAX < 2 * 1677721600
      ∧ runMachine (fun k => k) (construct (1 / 2 ^ 40)) (insertOps 25) = none := by
  have hd : roundToDouble ((1 : ℚ) / 2 ^ 40) = 1 / 2 ^ 40 := by
    have h := roundToDouble_zpow (-40)
    have he : (2 : ℚ) ^ (-40 : ℤ) = 1 / 2 ^ 40 := by norm_num
    rw [he] at h
    exact h
  obtain ⟨t, hrun, hcap, hitems, hmax, hreach, habs⟩ :=
    tiny_max_run (fun k => k) (distinctCalls 24) (by decide) (by decide)
  have hrun' : runMachine (fun k => k) (construct (1 / 2 ^ 40)) (insertOps 24) = some t := hrun
  have hlen : (distinctCalls 24).length = 24 := by decide
  rw [hlen] at hcap hitems
  have hcap' : t.m_capacity = 1677721600 := by rw [hcap]; norm_num
  have h25 : insertOps 25 = insertOps 24 ++ [Op.associate 24 24] := by decide
  refine ⟨hd, ?_, by decide, ?_⟩
  · rw [hrun', Option.map_some', hreach.invariant.length_eq, hcap']
    simp only [getNumItems, hitems]
  · rw [h25, runMachine_snoc, hrun', Option.some_bind]
    apply associateMachine_overflow
    · exact (find_eq_none_iff _ t 24).mpr (habs 24 (by decide))
    · rw [hmax]
      exact tiny_lt_round t.m_items t.m_capacity hreach.invariant.capacity_pos hreach.bounds.2.1
    · rw [hcap']
      decide

/-- C18, the claim as stated fails on the code: with the maximum load factor 0.3 (the double
`doubleThreeTenths`, between 1/100 and 2) the table holds 30 keys in 100 slots after 30
insertions, and the density 30/100 exceeds the maximum: the 30th quotient rounds to the
maximum itself, so the growth test of line 129 does not fire. -/
theorem load_bound_counterexample :
    (1 : ℚ) / 100 ≤ doubleThreeTenths ∧ doubleThreeTenths ≤ 2
      ∧ roundToDouble doubleThreeTenths = doubleThreeTenths
      ∧ runMachine (fun k => k) (construct doubleThreeTenths) (insertOps 30)
          = some (tieTable 30)
      ∧ (tieTable 30).m_maxLoadFactor = doubleThreeTenths
      ∧ getNumItems (tieTable 30) = 30 ∧ (tieTable 30).m_capacity = 100
      ∧ ¬ ((getNumItems (tieTable 30) : ℚ) / ((tieTable 30).m_capacity : ℚ)
            ≤ doubleThreeTenths) := by
  decide!

/-- C18, amended: load bound on the quotient as the code computes it. For a table
constructed with a maximum load factor `M` with `1/100 ≤ M ≤ 2`, in every state reached by
`associate` and `reset` in machine arithmetic the quotient item count / capacity rounded to
double is at most `M`: one doubling per insertion restores this bound. -/
theorem rounded_load_bound [DecidableEq K] (hash : K → Nat) (M : ℚ) (ops : List (Op K V))
    (t : MyHash K V) (hlo : 1 / 100 ≤ M) (hhi : M ≤ 2)
    (hrun : runMachine hash (construct M) ops = some t) :
    roundToDouble ((getNumItems t : ℚ) / (t.m_capacity : ℚ)) ≤ M := by
  have hmax : t.m_maxLoadFactor = M := by
    rw [m_maxLoadFactor_runMachine hash ops _ t (Inv_construct hash M) hrun,
      construct_max_of_mem M (by linarith) hhi]
  have hreach := ReachableMachine_run hash ops _ t (ReachableMachine.construct M) hrun
  have hb := rounded_density_le_max hreach
  rw [hmax] at hb
  exact hb hlo

/-- Witness of C18, amended: the maximum load factor 0.3 and 30 insertions, where the rounded
quotient equals the maximum. -/
theorem rounded_load_bound_witness :
    (1 : ℚ) / 100 ≤ doubleThreeTenths ∧ doubleThreeTenths ≤ 2
      ∧ runMachine (fun k => k) (construct doubleThreeTenths) (insertOps 30)
          = some (tieTable 30)
      ∧ roundToDouble ((getNumItems (tieTable 30) : ℚ) / ((tieTable 30).m_capacity : ℚ))
          ≤ doubleThreeTenths :=
  ⟨by decide!, by decide!, tieTable_run_30,
    rounded_load_bound (fun k => k) doubleThreeTenths (insertOps 30) (tieTable 30)
      (by decide!) (by decide!) tieTable_run_30⟩

end MyHash
